import Mathlib

/-!
Verification of the postqe field-reconstruction and file-codec routines
(`postqe/readutils.py`) against their specification.

The Python code is shallowly embedded:
* Python strings are `List Char`; `str.split()` is `pySplit`, file line
  iteration is `pyLines`, `str.replace` is `replAmp`.
* Real values handled by the text codec are exact rationals `ℚ`; the
  floating-point rendering `"  {:.9E}".format` and the parses `float(...)`,
  `int(...)` are abstract parameters (`fmt`, `pF`, `pI`), since decimal
  float formatting is outside the exact model.
* Complex charge coefficients are `ℂ`; `np.fft.ifftn` is the mathematical
  inverse discrete Fourier transform it computes (up to rounding).
* Python exceptions are an `Except PyErr` monad; `numpy` fancy indexing
  (negative wrap-around, bounds errors) is `npIndex`.
-/

namespace Postqe

/-- Python-style exceptions raised by the embedded code. -/
inductive PyErr where
  | indexError
  | valueError
  | attrError
deriving DecidableEq

/-- Python `str.split()` tokenizer: `acc` holds the (reversed) characters of
the token currently being scanned; tokens are maximal whitespace-free runs. -/
def pySplitGo (acc : List Char) : List Char → List (List Char)
  | [] => if acc = [] then [] else [acc.reverse]
  | c :: cs =>
      if c.isWhitespace then
        if acc = [] then pySplitGo [] cs else acc.reverse :: pySplitGo [] cs
      else pySplitGo (c :: acc) cs

/-- Python `str.split()` with no arguments, on a character list. -/
def pySplit (cs : List Char) : List (List Char) := pySplitGo [] cs

/-- Iterating a Python text file yields its lines; we model a line without its
terminating newline (the reader only ever applies `split()`, which discards
it).  A trailing newline does not produce a final empty line, matching
Python's file iteration. -/
def pyLinesGo (acc : List Char) : List Char → List (List Char)
  | [] => if acc = [] then [] else [acc.reverse]
  | c :: cs =>
      if c = '\n' then acc.reverse :: pyLinesGo [] cs
      else pyLinesGo (c :: acc) cs

/-- The list of lines a Python `for line in file` loop sees. -/
def pyLines (cs : List Char) : List (List Char) := pyLinesGo [] cs

/-- Does `l` contain `pat` as a contiguous substring (Python `pat in s`)? -/
def containsPat (pat : List Char) : List Char → Bool
  | [] => pat.isEmpty
  | c :: cs => pat.isPrefixOf (c :: cs) || containsPat pat cs

/-- The pattern rewritten by `read_pseudo_file`. -/
def ampPat : List Char := "&input".toList

/-- Its replacement. -/
def ampRep : List Char := "&amp;input".toList

/-- Python `line.replace('&input', '&amp;input')`: leftmost-first,
non-overlapping, scanning resumes after the inserted replacement. -/
def replAmp : List Char → List Char
  | [] => []
  | c :: cs =>
      if ampPat.isPrefixOf (c :: cs) then
        ampRep ++ replAmp ((c :: cs).drop ampPat.length)
      else
        c :: replAmp cs
termination_by l => l.length
decreasing_by
  · simp [ampPat, List.length_drop]
    omega
  · simp

/-- A dense 3-dimensional grid, addressed as `g x y z`. -/
def Grid3 (α : Type) : Type := ℕ → ℕ → ℕ → α

/-! ### Structured text codec (`write_charge` / `read_postqe_output_file`) -/

/-- The sequence of field values in the order the `write_charge` loops emit
them: outer loop over the 3rd axis (`z`), middle over the 2nd (`y`), inner
over the 1st (`x`), so the 1st axis varies fastest. -/
def flatValues (charge : Grid3 ℚ) (n1 n2 n3 : ℕ) : List ℚ :=
  (List.range n3).flatMap fun z =>
    (List.range n2).flatMap fun y =>
      (List.range n1).map fun x => charge x y z

/-- The characters `write_charge` emits for the field values, threading the
running counter: each value is written as `"  " ++ fmt v`, and a newline is
written exactly when the incremented counter is divisible by 5. -/
def emitVals (fmt : ℚ → List Char) : List ℚ → ℕ → List Char
  | [], _ => []
  | v :: vs, count =>
      ' ' :: ' ' :: (fmt v ++ (if (count + 1) % 5 = 0 then ['\n'] else []) ++
        emitVals fmt vs (count + 1))

/-- `write_charge(filename, charge, header)`: writes the header string, then
the field values in the fixed nested order with the counter starting at 0.
`fmt` abstracts the `"  {:.9E}".format` float rendering (minus the two-space
leading separator, which is emitted here). -/
def write_charge (header : List Char) (fmt : ℚ → List Char)
    (charge : Grid3 ℚ) (n1 n2 n3 : ℕ) : List Char :=
  header ++ emitVals fmt (flatValues charge n1 n2 n3) 0

/-- Loop state of `read_postqe_output_file`: the accumulated flat value list
`tempcharge`, the line counter, and the grid sizes `nr` (initialised to the
`np.zeros(3, dtype=int)` zeros). -/
structure RdState where
  tempcharge : List ℚ
  count : ℕ
  nr1 : ℤ
  nr2 : ℤ
  nr3 : ℤ

/-- Python `l[i]`: raises `IndexError` when out of range. -/
def pyIdx {α : Type} (l : List α) (i : ℕ) : Except PyErr α :=
  match l[i]? with
  | some a => .ok a
  | none => .error .indexError

/-- Python `int(token)`: raises `ValueError` when the token does not parse. -/
def pyInt (pI : List Char → Option ℤ) (t : List Char) : Except PyErr ℤ :=
  match pI t with
  | some v => .ok v
  | none => .error .valueError

/-- Python `float(token)`: raises `ValueError` when the token does not parse. -/
def pyFloat (pF : List Char → Option ℚ) (t : List Char) : Except PyErr ℚ :=
  match pF t with
  | some v => .ok v
  | none => .error .valueError

/-- The `for j in range(0, len(linesplit))` loop appending `float(...)` of
every token; the first unparsable token raises `ValueError`. -/
def pyFloats (pF : List Char → Option ℚ) : List (List Char) →
    Except PyErr (List ℚ)
  | [] => .ok []
  | t :: ts => do
      let q ← pyFloat pF t
      let qs ← pyFloats pF ts
      pure (q :: qs)

/-- One iteration of the `for line in lines` loop of
`read_postqe_output_file`: on the line with `count == 1` the grid sizes are
taken from whitespace tokens 1, 2, 3 (`int(...)`); then any line whose first
token is not the literal `'#'` contributes all its tokens (as `float`s) to
`tempcharge`; finally the counter is incremented. -/
def procLine (pI : List Char → Option ℤ) (pF : List Char → Option ℚ)
    (st : RdState) (line : List Char) : Except PyErr RdState := do
  let linesplit := pySplit line
  let st1 ←
    if st.count = 1 then do
      let a ← pyIdx linesplit 1
      let v1 ← pyInt pI a
      let b ← pyIdx linesplit 2
      let v2 ← pyInt pI b
      let c ← pyIdx linesplit 3
      let v3 ← pyInt pI c
      pure { st with nr1 := v1, nr2 := v2, nr3 := v3 }
    else pure st
  let h ← pyIdx linesplit 0
  let st2 ←
    if h ≠ ['#'] then do
      let qs ← pyFloats pF linesplit
      pure { st1 with tempcharge := st1.tempcharge ++ qs }
    else pure st1
  pure { st2 with count := st2.count + 1 }

/-- Initial loop state of `read_postqe_output_file`. -/
def initRd : RdState := ⟨[], 0, 0, 0, 0⟩

/-- The whole line loop of `read_postqe_output_file`. -/
def readLoop (pI : List Char → Option ℤ) (pF : List Char → Option ℚ)
    (lines : List (List Char)) : Except PyErr RdState :=
  lines.foldlM (procLine pI pF) initRd

/-- `read_postqe_output_file`: runs the line loop, then refolds `tempcharge`
into an `nr1 × nr2 × nr3` grid with the same nested order as the writer
(`charge[x,y,z] = tempcharge[count]`, the running `count` being
`z*(nr2*nr1) + y*nr1 + x`).  `np.zeros` with a negative size raises
`ValueError`; reading `tempcharge[count]` past its end raises `IndexError`,
which happens exactly when fewer than `nr3*nr2*nr1` values were collected;
any extra collected values are silently ignored. -/
def read_postqe_output_file (pI : List Char → Option ℤ)
    (pF : List Char → Option ℚ) (lines : List (List Char)) :
    Except PyErr (Grid3 ℚ) := do
  let st ← readLoop pI pF lines
  if st.nr1 < 0 ∨ st.nr2 < 0 ∨ st.nr3 < 0 then
    .error .valueError
  else
    let n1 := st.nr1.toNat
    let n2 := st.nr2.toNat
    let n3 := st.nr3.toNat
    if n3 * n2 * n1 ≤ st.tempcharge.length then
      .ok fun x y z => (st.tempcharge[z * (n2 * n1) + y * n1 + x]?).getD 0
    else
      .error .indexError

/-- The flat value list the reader collects: all parsed tokens of the lines
whose first token is not the literal `'#'`, in file order. -/
def collectedTokens (pF : List Char → Option ℚ)
    (lines : List (List Char)) : List ℚ :=
  (lines.filter (fun l => !((pySplit l).head? == some ['#']))).flatMap
    (fun l => (pySplit l).filterMap pF)

/-- Groups of five consecutive values (the last group possibly shorter):
`chunksGo r cur vs` closes the current group `cur` (reversed) after `r` more
values and then groups by five. -/
def chunksGo : ℕ → List ℚ → List ℚ → List (List ℚ)
  | _, cur, [] => if cur = [] then [] else [cur.reverse]
  | 0, cur, v :: vs => (v :: cur).reverse :: chunksGo 4 [] vs
  | r + 1, cur, v :: vs => chunksGo r (v :: cur) vs

/-- The values grouped five per line, as the writer's counter produces them. -/
def groupsOfFive (vals : List ℚ) : List (List ℚ) := chunksGo 4 [] vals

/-! ### Sparse-to-dense charge reconstruction (`read_charge_file_hdf5`) -/

/-- `numpy` index resolution on an axis of size `n`: indices in `[0, n)` are
used as-is, indices in `[-n, 0)` wrap to `i + n`, anything else raises
`IndexError` (modelled as `none`). -/
def npIndex (n : ℕ) (i : ℤ) : Option ℕ :=
  if 0 ≤ i ∧ i < (n : ℤ) then some i.toNat
  else if -(n : ℤ) ≤ i ∧ i < 0 then some (i + n).toNat
  else none

/-- Resolution of a Miller-index triple against the grid shape. -/
def npIndex3 (n1 n2 n3 : ℕ) (t : ℤ × ℤ × ℤ) : Option (ℕ × ℕ × ℕ) := do
  let x ← npIndex n1 t.1
  let y ← npIndex n2 t.2.1
  let z ← npIndex n3 t.2.2
  pure (x, y, z)

/-- One execution of `rho_temp[i,j,k] = rho`: resolve the indices, then
overwrite that single cell (scatter-assign, not accumulate). -/
def scatterStep {α : Type} (n1 n2 n3 : ℕ) (g : Grid3 α)
    (e : (ℤ × ℤ × ℤ) × α) : Option (Grid3 α) :=
  match npIndex3 n1 n2 n3 e.1 with
  | some q => some fun x y z => if (x, y, z) = q then e.2 else g x y z
  | none => none

/-- The scatter loop `for el in zip(MillerIndices, rho_g)` from a given grid. -/
def scatterFrom {α : Type} (n1 n2 n3 : ℕ) (g : Grid3 α)
    (l : List ((ℤ × ℤ × ℤ) × α)) : Option (Grid3 α) :=
  l.foldlM (scatterStep n1 n2 n3) g

/-- The scatter loop started from `np.zeros([nr1,nr2,nr3])`. -/
def scatterList {α : Type} [Zero α] (l : List ((ℤ × ℤ × ℤ) × α))
    (n1 n2 n3 : ℕ) : Option (Grid3 α) :=
  scatterFrom n1 n2 n3 (fun _ _ _ => 0) l

/-- The coefficient paired with the last entry of `l` whose Miller triple
resolves to grid position `p` (later entries shadow earlier ones). -/
def lastCoeffAt {α : Type} (n1 n2 n3 : ℕ) :
    List ((ℤ × ℤ × ℤ) × α) → ℕ × ℕ × ℕ → Option α
  | [], _ => none
  | e :: l, p =>
      match lastCoeffAt n1 n2 n3 l p with
      | some c => some c
      | none =>
          match npIndex3 n1 n2 n3 e.1 with
          | some q => if q = p then some e.2 else none
          | none => none

/-- `np.fft.ifftn` on an `n1 × n2 × n3` grid, as the mathematical inverse
discrete Fourier transform it computes:
`a[x,y,z] = (1/N) Σ g[i,j,k] exp(2πi (x i/n1 + y j/n2 + z k/n3))`. -/
noncomputable def ifftn (n1 n2 n3 : ℕ) (g : Grid3 ℂ) (x y z : ℕ) : ℂ :=
  (∑ i ∈ Finset.range n1, ∑ j ∈ Finset.range n2, ∑ k ∈ Finset.range n3,
      g i j k * Complex.exp (2 * Real.pi * Complex.I *
        (((x * i : ℕ) : ℂ) / (n1 : ℂ) + ((y * j : ℕ) : ℂ) / (n2 : ℂ) +
          ((z * k : ℕ) : ℂ) / (n3 : ℂ)))) / ((n1 : ℂ) * (n2 : ℂ) * (n3 : ℂ))

/-- Group a flat real dataset into consecutive pairs (`reshape([ngm_g, 2])`
row contents). -/
def pairUp : List ℝ → List (ℝ × ℝ)
  | a :: b :: r => (a, b) :: pairUp r
  | _ => []

/-- `np.array(...).reshape([n, 2])`: succeeds with the `n` rows exactly when
the flat dataset holds `2*n` entries, otherwise raises. -/
def reshapePairs (flat : List ℝ) (n : ℕ) : Option (List (ℝ × ℝ)) :=
  if flat.length = 2 * n then some (pairUp flat) else none

/-- `x.dot((1e0, 1.j))`: a flat (re, im) pair as one complex coefficient. -/
noncomputable def pairToC (p : ℝ × ℝ) : ℂ := p.1 + p.2 * Complex.I

/-- The structured contents of the HDF5 charge file: the `ngm_g` attribute
(`attrs.get` yields `None` when absent), the `MillerIndices` dataset, the
flat `rhotot_g` dataset, and the optional flat `rhodiff_g` dataset. -/
structure H5Charge where
  ngm_g : Option ℕ
  millerIndices : List (ℤ × ℤ × ℤ)
  rhotot_g : List ℝ
  rhodiff_g : Option (List ℝ)

/-- `read_charge_file_hdf5(filename, nr)`: reshape `rhotot_g` into complex
coefficients, scatter them at their Miller indices over a zeroed
`nr1 × nr2 × nr3` complex grid, apply `np.fft.ifftn`, multiply by
`nr1*nr2*nr3`, and keep the real parts.  The spin-difference dataset is
processed identically inside a bare `try/except`: any failure (absent
dataset, bad reshape, bad index) falls back to a zero complex grid.  Failures
in the total-charge computation propagate (`none`). -/
noncomputable def read_charge_file_hdf5 (h5 : H5Charge) (n1 n2 n3 : ℕ) :
    Option (Grid3 ℝ × Grid3 ℝ) := do
  let ngm ← h5.ngm_g
  let aux ← reshapePairs h5.rhotot_g ngm
  let rhotot_g := aux.map pairToC
  let rho_temp ← scatterList (h5.millerIndices.zip rhotot_g) n1 n2 n3
  let rhotot_r : Grid3 ℂ := fun x y z =>
    ifftn n1 n2 n3 rho_temp x y z * (n1 : ℂ) * (n2 : ℂ) * (n3 : ℂ)
  let rhodiff_r : Grid3 ℂ :=
    match h5.rhodiff_g with
    | some flat =>
        match reshapePairs flat ngm with
        | some aux2 =>
            match scatterList (h5.millerIndices.zip (aux2.map pairToC)) n1 n2 n3 with
            | some temp2 => fun x y z =>
                ifftn n1 n2 n3 temp2 x y z * (n1 : ℂ) * (n2 : ℂ) * (n3 : ℂ)
            | none => fun _ _ _ => 0
        | none => fun _ _ _ => 0
    | none => fun _ _ _ => 0
  some (fun x y z => (rhotot_r x y z).re, fun x y z => (rhodiff_r x y z).re)

/-! ### Pseudopotential reader (`read_pseudo_file`) -/

/-- An `xml.etree.ElementTree` element: tag, attributes (`items()`), text
payload (`None` when absent) and ordered children. -/
inductive ETree where
  | mk (tag : String) (attrs : List (String × String)) (text : Option String)
      (children : List ETree)

def ETree.tag : ETree → String
  | .mk t _ _ _ => t

def ETree.attrs : ETree → List (String × String)
  | .mk _ a _ _ => a

def ETree.text : ETree → Option String
  | .mk _ _ s _ => s

def ETree.children : ETree → List ETree
  | .mk _ _ _ c => c

/-- `root.find('./NAME')`: the first child with the given tag, else `None`. -/
def findChild (t : ETree) (name : String) : Option ETree :=
  t.children.find? fun c => c.tag == name

/-- `root.find('./A/B')`: the first `B`-child of an `A`-child, scanning the
`A`-children in document order. -/
def findPath2 (t : ETree) (a b : String) : Option ETree :=
  (t.children.filter fun c => c.tag == a).findSome? fun c => findChild c b

/-- Python `'pat' in el.tag` substring test. -/
def strContains (s pat : String) : Bool := containsPat pat.toList s.toList

/-- Dereference a `find` result: Python raises `AttributeError` when an
attribute of `None` is accessed. -/
def expectNode (node : Option ETree) : Except PyErr ETree :=
  match node with
  | some n => .ok n
  | none => .error .attrError

/-- `node.text.split()` followed by `float(...)` on every token: raises
`AttributeError` when `node` is `None` or its text is `None`, and
`ValueError` when a token does not parse. -/
def textTokens (pF : List Char → Option ℚ) (node : Option ETree) :
    Except PyErr (List ℚ) := do
  let n ← expectNode node
  let s ←
    match n.text with
    | some s => Except.ok s
    | none => Except.error PyErr.attrError
  (pySplit s.toList).mapM (pyFloat pF)

/-- The `if not node is None` pattern guarding an optional array. -/
def optTokens (pF : List Char → Option ℚ) (node : Option ETree) :
    Except PyErr (Option (List ℚ)) :=
  match node with
  | none => .ok none
  | some n => (textTokens pF (some n)).map some

/-- One `PP_BETA*` block: its attributes plus the parsed array. -/
structure PPBeta where
  attrs : List (String × String)
  beta : List ℚ
deriving DecidableEq

/-- One `PP_QIJL*` or `PP_QIJ*` block. -/
structure PPQblock where
  attrs : List (String × String)
  vals : List ℚ
deriving DecidableEq

/-- The `PP_AUGMENTATION` dictionary. -/
structure PPAug where
  attrs : List (String × String)
  qijl : List PPQblock
  qij : List PPQblock
  ppq : Option (List ℚ)
deriving DecidableEq

/-- The `PP_NONLOCAL` dictionary. -/
structure PPNonlocal where
  betas : List PPBeta
  dij : Option (List ℚ)
  aug : Option PPAug
deriving DecidableEq

/-- The fully populated dictionary `read_pseudo_file` builds. -/
structure PseudoFull where
  pp_info : Option String
  pp_input : Option String
  pp_header : List (String × String)
  pp_mesh_attrs : List (String × String)
  pp_r : List ℚ
  pp_rab : List ℚ
  pp_local : Option (List ℚ)
  pp_rhoatom : Option (List ℚ)
  pp_nonlocal : Option PPNonlocal
deriving DecidableEq

/-- The reader's result: the empty dictionary (returned when the XML parse
fails) or the populated one. -/
inductive PseudoDict where
  | empty
  | full (p : PseudoFull)
deriving DecidableEq

/-- State of the `for el in node` loop inside the `PP_NONLOCAL` branch; the
`pp_q` variable lives outside the `PP_AUGMENTATION` branch and persists
across children. -/
structure NLState where
  betas : List PPBeta
  dij : Option (List ℚ)
  aug : Option PPAug
  ppq : Option (List ℚ)

/-- State of the inner `for q in el` loop of the `PP_AUGMENTATION` branch. -/
structure AugState where
  qijl : List PPQblock
  qij : List PPQblock
  ppq : Option (List ℚ)

/-- One iteration of the inner `for q in el` loop: `PP_QIJL` matches are
appended first (the `elif` order matters: `'PP_QIJL' in q.tag` shadows
`'PP_QIJ' in q.tag`), and `q.tag == 'PP_Q'` sets `pp_q`. -/
def augStep (pF : List Char → Option ℚ) (st : AugState) (q : ETree) :
    Except PyErr AugState := do
  if strContains q.tag "PP_QIJL" then do
    let val ← textTokens pF (some q)
    pure { st with qijl := st.qijl ++ [{ attrs := q.attrs, vals := val }] }
  else if strContains q.tag "PP_QIJ" then do
    let val ← textTokens pF (some q)
    pure { st with qij := st.qij ++ [{ attrs := q.attrs, vals := val }] }
  else if q.tag == "PP_Q" then do
    let val ← textTokens pF (some q)
    pure { st with ppq := some val }
  else
    pure st

/-- One iteration of the `for el in node` loop over `PP_NONLOCAL` children. -/
def nlStep (pF : List Char → Option ℚ) (st : NLState) (el : ETree) :
    Except PyErr NLState := do
  if strContains el.tag "PP_BETA" then do
    let val ← textTokens pF (some el)
    pure { st with betas := st.betas ++ [{ attrs := el.attrs, beta := val }] }
  else if strContains el.tag "PP_DIJ" then do
    let val ← textTokens pF (some el)
    pure { st with dij := some val }
  else if strContains el.tag "PP_AUGMENTATION" then do
    let inner ← el.children.foldlM (augStep pF)
      { qijl := [], qij := [], ppq := st.ppq }
    pure { st with
      aug := some { attrs := el.attrs, qijl := inner.qijl, qij := inner.qij,
                    ppq := inner.ppq },
      ppq := inner.ppq }
  else
    pure st

/-- Everything `read_pseudo_file` does after a successful XML parse. -/
def readPseudoParsed (pF : List Char → Option ℚ) (psroot : ETree) :
    Except PyErr PseudoDict := do
  let infoNode ← expectNode (findChild psroot "PP_INFO")
  let pp_info := infoNode.text
  let pp_input : Option String :=
    match findPath2 psroot "PP_INFO" "PP_INPUTFILE" with
    | none => some ""
    | some n => n.text
  let headerNode ← expectNode (findChild psroot "PP_HEADER")
  let pp_header := headerNode.attrs
  let meshNode ← expectNode (findChild psroot "PP_MESH")
  let pp_mesh := meshNode.attrs
  let pp_r ← textTokens pF (findPath2 psroot "PP_MESH" "PP_R")
  let pp_rab ← textTokens pF (findPath2 psroot "PP_MESH" "PP_RAB")
  let pp_local ← optTokens pF (findChild psroot "PP_LOCAL")
  let pp_rhoatom ← optTokens pF (findChild psroot "PP_RHOATOM")
  let pp_nonlocal ←
    match findChild psroot "PP_NONLOCAL" with
    | none => pure none
    | some node => do
        let st ← node.children.foldlM (nlStep pF)
          { betas := [], dij := none, aug := none, ppq := none }
        pure (some { betas := st.betas, dij := st.dij, aug := st.aug })
  pure (.full
    { pp_info := pp_info
      pp_input := pp_input
      pp_header := pp_header
      pp_mesh_attrs := pp_mesh
      pp_r := pp_r
      pp_rab := pp_rab
      pp_local := pp_local
      pp_rhoatom := pp_rhoatom
      pp_nonlocal := pp_nonlocal })

/-- The text handed to `ET.fromstringlist`: every raw line with its `&input`
occurrences rewritten to `&amp;input`, concatenated. -/
def pseudoParserInput (rawLines : List (List Char)) : List Char :=
  (rawLines.map replAmp).flatten

/-- `read_pseudo_file(filename)`: rewrite `&input` per line, hand the result
to the XML front end (`etParse`, abstract: the external
`xml.etree.ElementTree` library), *return the still-empty dictionary* when
the parse raises `ET.ParseError`, and otherwise extract the known-shape
blocks. -/
def read_pseudo_file (rawLines : List (List Char))
    (etParse : List Char → Except Unit ETree)
    (pF : List Char → Option ℚ) : Except PyErr PseudoDict :=
  match etParse (pseudoParserInput rawLines) with
  | .error _ => .ok .empty
  | .ok psroot => readPseudoParsed pF psroot

/-! ### Lemmas about the scatter loop -/

/-- The scatter loop is a last-write-wins overwrite: starting from `g0`, it
succeeds whenever every Miller triple resolves, and each cell holds the
coefficient of the last entry resolving to it (else the initial value). -/
theorem scatterFrom_eq {α : Type} (n1 n2 n3 : ℕ)
    (l : List ((ℤ × ℤ × ℤ) × α)) (g0 : Grid3 α)
    (h : ∀ e ∈ l, (npIndex3 n1 n2 n3 e.1).isSome = true) :
    scatterFrom n1 n2 n3 g0 l =
      some fun x y z =>
        match lastCoeffAt n1 n2 n3 l (x, y, z) with
        | some c => c
        | none => g0 x y z := by
  induction l generalizing g0 with
  | nil => rfl
  | cons e l ih =>
      have he : (npIndex3 n1 n2 n3 e.1).isSome = true := h e (List.mem_cons_self e l)
      obtain ⟨q, hq⟩ := Option.isSome_iff_exists.mp he
      have hrest : ∀ e' ∈ l, (npIndex3 n1 n2 n3 e'.1).isSome = true :=
        fun e' he' => h e' (List.mem_cons_of_mem e he')
      simp only [scatterFrom, List.foldlM_cons] at *
      rw [scatterStep, hq]
      simp only [Option.bind_eq_bind, Option.some_bind]
      rw [ih _ hrest]
      congr 1
      funext x y z
      simp only [lastCoeffAt, hq]
      cases hl : lastCoeffAt n1 n2 n3 l (x, y, z) with
      | some c => rfl
      | none =>
          by_cases hqp : q = (x, y, z)
          · simp [hqp]
          · have : ¬ ((x, y, z) = q) := fun hh => hqp hh.symm
            simp [hqp, this]

/-- `lastCoeffAt` over an append: entries of the second part shadow the
first. -/
theorem lastCoeffAt_append {α : Type} (n1 n2 n3 : ℕ)
    (l1 l2 : List ((ℤ × ℤ × ℤ) × α)) (p : ℕ × ℕ × ℕ) :
    lastCoeffAt n1 n2 n3 (l1 ++ l2) p =
      match lastCoeffAt n1 n2 n3 l2 p with
      | some c => some c
      | none => lastCoeffAt n1 n2 n3 l1 p := by
  induction l1 with
  | nil =>
      simp only [List.nil_append, lastCoeffAt]
      cases lastCoeffAt n1 n2 n3 l2 p <;> rfl
  | cons e l1 ih =>
      simp only [List.cons_append, lastCoeffAt]
      rw [show l1.append l2 = l1 ++ l2 from rfl, ih]
      cases lastCoeffAt n1 n2 n3 l2 p <;> cases lastCoeffAt n1 n2 n3 l1 p <;> rfl

/-- If no entry of `l` resolves to `p`, `lastCoeffAt` yields nothing there. -/
theorem lastCoeffAt_eq_none {α : Type} (n1 n2 n3 : ℕ)
    (l : List ((ℤ × ℤ × ℤ) × α)) (p : ℕ × ℕ × ℕ)
    (h : ∀ e ∈ l, npIndex3 n1 n2 n3 e.1 ≠ some p) :
    lastCoeffAt n1 n2 n3 l p = none := by
  induction l with
  | nil => rfl
  | cons e l ih =>
      have he := h e (List.mem_cons_self e l)
      have hrest : ∀ e' ∈ l, npIndex3 n1 n2 n3 e'.1 ≠ some p :=
        fun e' he' => h e' (List.mem_cons_of_mem e he')
      simp only [lastCoeffAt, ih hrest]
      cases hq : npIndex3 n1 n2 n3 e.1 with
      | none => rfl
      | some q =>
          have : q ≠ p := fun hh => he (by rw [hq, hh])
          simp [this]

/-- **C7.** When the Miller-index list contains duplicate triples, the
scatter step assigns rather than accumulates: the grid cell at a repeated
index ends up holding the coefficient paired with the last occurrence of
that index in input order, and the earlier coefficients at the same index
(the arbitrary prefix `A`) have no effect on the result. -/
theorem scatter_last_write_wins (n1 n2 n3 : ℕ)
    (A B : List ((ℤ × ℤ × ℤ) × ℂ)) (t : ℤ × ℤ × ℤ) (c : ℂ) (q : ℕ × ℕ × ℕ)
    (hA : ∀ e ∈ A, (npIndex3 n1 n2 n3 e.1).isSome = true)
    (hB : ∀ e ∈ B, (npIndex3 n1 n2 n3 e.1).isSome = true)
    (ht : npIndex3 n1 n2 n3 t = some q)
    (hBq : ∀ e ∈ B, npIndex3 n1 n2 n3 e.1 ≠ some q) :
    ∃ g, scatterList (A ++ (t, c) :: B) n1 n2 n3 = some g ∧
      g q.1 q.2.1 q.2.2 = c := by
  have hall : ∀ e ∈ A ++ (t, c) :: B, (npIndex3 n1 n2 n3 e.1).isSome = true := by
    intro e he
    rcases List.mem_append.mp he with h1 | h2
    · exact hA e h1
    · rcases List.mem_cons.mp h2 with h3 | h4
      · rw [h3]; simp [ht]
      · exact hB e h4
  rw [scatterList, scatterFrom_eq n1 n2 n3 _ _ hall]
  refine ⟨_, rfl, ?_⟩
  have hlast : lastCoeffAt n1 n2 n3 (A ++ (t, c) :: B) q = some c := by
    rw [lastCoeffAt_append]
    have : lastCoeffAt n1 n2 n3 ((t, c) :: B) q = some c := by
      simp only [lastCoeffAt, lastCoeffAt_eq_none n1 n2 n3 B q hBq, ht]
      simp
    rw [this]
  simp [hlast]

/-- Witness for C7 at a concrete duplicate pair: the later coefficient 7
overwrites the earlier 5 at Miller index (0,0,0) on a 1×1×1 grid. -/
theorem scatter_last_write_wins_witness :
    (∀ e ∈ [(((0 : ℤ), (0 : ℤ), (0 : ℤ)), (5 : ℂ))],
        (npIndex3 1 1 1 e.1).isSome = true) ∧
    (∀ e ∈ ([] : List ((ℤ × ℤ × ℤ) × ℂ)),
        (npIndex3 1 1 1 e.1).isSome = true) ∧
    npIndex3 1 1 1 ((0 : ℤ), (0 : ℤ), (0 : ℤ)) = some (0, 0, 0) ∧
    (∀ e ∈ ([] : List ((ℤ × ℤ × ℤ) × ℂ)),
        npIndex3 1 1 1 e.1 ≠ some (0, 0, 0)) ∧
    ∃ g, scatterList
        ([(((0 : ℤ), (0 : ℤ), (0 : ℤ)), (5 : ℂ))] ++
          (((0 : ℤ), (0 : ℤ), (0 : ℤ)), (7 : ℂ)) :: []) 1 1 1 = some g ∧
      g 0 0 0 = 7 :=
  ⟨by decide, by decide, by decide, by decide,
    scatter_last_write_wins 1 1 1 _ _ _ 7 (0, 0, 0)
      (by decide) (by decide) (by decide) (by decide)⟩

/-- A Miller index inside `[-n, n)` resolves to `(i mod n)` (in the
mathematical, always-nonnegative sense of `mod`). -/
theorem npIndex_eq_mod (n : ℕ) (i : ℤ) (h1 : -(n : ℤ) ≤ i) (h2 : i < n) :
    npIndex n i = some (i % n).toNat := by
  unfold npIndex
  by_cases h0 : 0 ≤ i
  · have hn : 0 < (n : ℤ) := lt_of_le_of_lt h0 h2
    rw [if_pos ⟨h0, h2⟩, Int.emod_eq_of_lt h0 h2]
  · push_neg at h0
    have hmod : i % n = i + n := by
      have h4 : (i + n) % n = i + n := Int.emod_eq_of_lt (by omega) (by omega)
      have h5 : (i + n) % (n : ℤ) = i % n := by
        simp
      omega
    rw [if_neg (by omega), if_pos ⟨h1, h0⟩, hmod]

/-- **C9.** A Miller-index triple with components in `[-nr, nr)` is stored at
grid position `(i mod nr1, j mod nr2, k mod nr3)`: negative components wrap
to positions counted from the end of the axis rather than failing. -/
theorem scatter_wraps_negative (n1 n2 n3 : ℕ) (i j k : ℤ) (c : ℂ)
    (hi : -(n1 : ℤ) ≤ i ∧ i < n1) (hj : -(n2 : ℤ) ≤ j ∧ j < n2)
    (hk : -(n3 : ℤ) ≤ k ∧ k < n3) :
    scatterList [((i, j, k), c)] n1 n2 n3 =
      some fun x y z =>
        if (x, y, z) = ((i % n1).toNat, (j % n2).toNat, (k % n3).toNat)
        then c else 0 := by
  have hx := npIndex_eq_mod n1 i hi.1 hi.2
  have hy := npIndex_eq_mod n2 j hj.1 hj.2
  have hz := npIndex_eq_mod n3 k hk.1 hk.2
  simp only [scatterList, scatterFrom, List.foldlM_cons, List.foldlM_nil,
    scatterStep, npIndex3, hx, hy, hz, Option.bind_eq_bind, Option.some_bind,
    Option.pure_def]

/-- Witness for C9: on a 2×3×4 grid, Miller index (-1, -3, 3) lands at
(1, 0, 3) and holds its coefficient. -/
theorem scatter_wraps_negative_witness :
    (-(2 : ℤ) ≤ (-1 : ℤ) ∧ (-1 : ℤ) < 2) ∧
    (-(3 : ℤ) ≤ (-3 : ℤ) ∧ (-3 : ℤ) < 3) ∧
    (-(4 : ℤ) ≤ (3 : ℤ) ∧ (3 : ℤ) < 4) ∧
    scatterList [(((-1 : ℤ), (-3 : ℤ), (3 : ℤ)), (11 : ℂ))] 2 3 4 =
      some fun x y z =>
        if (x, y, z) = (((-1 : ℤ) % 2).toNat, ((-3 : ℤ) % 3).toNat,
            ((3 : ℤ) % 4).toNat) then (11 : ℂ) else 0 :=
  ⟨by decide, by decide, by decide,
    scatter_wraps_negative 2 3 4 (-1) (-3) 3 11
      (by decide) (by decide) (by decide)⟩

/-- `scatterList` unfolded to the general loop. -/
theorem scatterList_eq_from {α : Type} [Zero α] (l : List ((ℤ × ℤ × ℤ) × α))
    (n1 n2 n3 : ℕ) :
    scatterList l n1 n2 n3 = scatterFrom n1 n2 n3 (fun _ _ _ => 0) l := rfl

/-- The inverse transform of the all-zero grid is zero everywhere. -/
theorem ifftn_zero (n1 n2 n3 x y z : ℕ) :
    ifftn n1 n2 n3 (fun _ _ _ => 0) x y z = 0 := by
  simp [ifftn]

/-- **C1.** For equal-length Miller-index and coefficient datasets over a
positive grid shape, the charge reconstruction scatters the complex
coefficients over a zeroed `nr1 × nr2 × nr3` grid, applies the inverse 3D
discrete Fourier transform, multiplies by `nr1*nr2*nr3`, and returns the
real part; in particular an empty coefficient list yields the all-zero real
field. -/
theorem charge_reconstruction_pipeline (h5 : H5Charge) (n1 n2 n3 ngm : ℕ)
    (hng : h5.ngm_g = some ngm)
    (hlen : h5.rhotot_g.length = 2 * ngm)
    (hmlen : h5.millerIndices.length = ngm)
    (hpos : 0 < n1 ∧ 0 < n2 ∧ 0 < n3)
    (hin : ∀ t ∈ h5.millerIndices, (npIndex3 n1 n2 n3 t).isSome = true) :
    ∃ grid,
      scatterList (h5.millerIndices.zip ((pairUp h5.rhotot_g).map pairToC))
          n1 n2 n3 = some grid ∧
      ∃ res, read_charge_file_hdf5 h5 n1 n2 n3 = some res ∧
        (∀ x y z, res.1 x y z =
          (ifftn n1 n2 n3 grid x y z * (n1 : ℂ) * (n2 : ℂ) * (n3 : ℂ)).re) ∧
        (h5.millerIndices = [] → ∀ x y z, res.1 x y z = 0) := by
  classical
  have hz : ∀ e ∈ h5.millerIndices.zip ((pairUp h5.rhotot_g).map pairToC),
      (npIndex3 n1 n2 n3 e.1).isSome = true :=
    fun e he => hin e.1 (List.of_mem_zip he).1
  have hscat := scatterFrom_eq n1 n2 n3
    (h5.millerIndices.zip ((pairUp h5.rhotot_g).map pairToC))
    (fun _ _ _ => (0 : ℂ)) hz
  have hresh : reshapePairs h5.rhotot_g ngm = some (pairUp h5.rhotot_g) := by
    simp [reshapePairs, hlen]
  rw [scatterList_eq_from]
  refine ⟨_, hscat, ?_⟩
  unfold read_charge_file_hdf5
  rw [hng]
  simp only [Option.bind_eq_bind, Option.some_bind]
  rw [hresh]
  simp only [Option.some_bind]
  rw [scatterList_eq_from, hscat]
  simp only [Option.some_bind]
  refine ⟨_, rfl, fun x y z => rfl, ?_⟩
  intro hempty x y z
  have hznil : h5.millerIndices.zip ((pairUp h5.rhotot_g).map pairToC) = [] := by
    rw [hempty]; rfl
  have hg0 : scatterFrom n1 n2 n3 (fun _ _ _ => (0 : ℂ))
      (h5.millerIndices.zip ((pairUp h5.rhotot_g).map pairToC)) =
      some fun _ _ _ => (0 : ℂ) := by
    rw [hznil]; rfl
  have hGeq := Option.some.inj (hscat.symm.trans hg0)
  show (ifftn n1 n2 n3 _ x y z * (n1 : ℂ) * (n2 : ℂ) * (n3 : ℂ)).re = 0
  rw [hGeq, ifftn_zero]
  simp

/-- Witness for C1: an empty coefficient dataset on a 1×1×1 grid
reconstructs to the all-zero real field. -/
theorem charge_reconstruction_pipeline_witness :
    (H5Charge.mk (some 0) [] [] none).ngm_g = some 0 ∧
    (H5Charge.mk (some 0) [] [] none).rhotot_g.length = 2 * 0 ∧
    (H5Charge.mk (some 0) [] [] none).millerIndices.length = 0 ∧
    ((0 : ℕ) < 1 ∧ (0 : ℕ) < 1 ∧ (0 : ℕ) < 1) ∧
    (∀ t ∈ (H5Charge.mk (some 0) [] [] none).millerIndices,
        (npIndex3 1 1 1 t).isSome = true) ∧
    ∃ grid,
      scatterList ((H5Charge.mk (some 0) [] [] none).millerIndices.zip
          ((pairUp (H5Charge.mk (some 0) [] [] none).rhotot_g).map pairToC))
          1 1 1 = some grid ∧
      ∃ res, read_charge_file_hdf5 (H5Charge.mk (some 0) [] [] none) 1 1 1 =
          some res ∧
        (∀ x y z, res.1 x y z =
          (ifftn 1 1 1 grid x y z * ((1 : ℕ) : ℂ) * ((1 : ℕ) : ℂ) *
            ((1 : ℕ) : ℂ)).re) ∧
        ((H5Charge.mk (some 0) [] [] none).millerIndices = [] →
          ∀ x y z, res.1 x y z = 0) :=
  ⟨rfl, rfl, rfl, by decide, by simp,
    charge_reconstruction_pipeline (H5Charge.mk (some 0) [] [] none) 1 1 1 0
      rfl rfl rfl (by decide) (by simp)⟩

/-- **C5.** When the optional spin-difference dataset `rhodiff_g` is absent,
the charge reconstruction still succeeds and the difference field it returns
is identically zero. -/
theorem missing_rhodiff_gives_zero (h5 : H5Charge) (n1 n2 n3 ngm : ℕ)
    (hng : h5.ngm_g = some ngm)
    (hlen : h5.rhotot_g.length = 2 * ngm)
    (hin : ∀ t ∈ h5.millerIndices, (npIndex3 n1 n2 n3 t).isSome = true)
    (hdiff : h5.rhodiff_g = none) :
    ∃ res, read_charge_file_hdf5 h5 n1 n2 n3 = some res ∧
      ∀ x y z, res.2 x y z = 0 := by
  classical
  have hz : ∀ e ∈ h5.millerIndices.zip ((pairUp h5.rhotot_g).map pairToC),
      (npIndex3 n1 n2 n3 e.1).isSome = true :=
    fun e he => hin e.1 (List.of_mem_zip he).1
  have hscat := scatterFrom_eq n1 n2 n3
    (h5.millerIndices.zip ((pairUp h5.rhotot_g).map pairToC))
    (fun _ _ _ => (0 : ℂ)) hz
  have hresh : reshapePairs h5.rhotot_g ngm = some (pairUp h5.rhotot_g) := by
    simp [reshapePairs, hlen]
  unfold read_charge_file_hdf5
  rw [hng]
  simp only [Option.bind_eq_bind, Option.some_bind]
  rw [hresh]
  simp only [Option.some_bind]
  rw [scatterList_eq_from, hscat]
  simp only [Option.some_bind, hdiff]
  exact ⟨_, rfl, fun x y z => by simp⟩

/-- Witness for C5: a one-coefficient dataset without `rhodiff_g` yields a
zero difference field. -/
theorem missing_rhodiff_gives_zero_witness :
    (H5Charge.mk (some 1) [((0 : ℤ), (0 : ℤ), (0 : ℤ))] [1, 0] none).ngm_g =
        some 1 ∧
    (H5Charge.mk (some 1) [((0 : ℤ), (0 : ℤ), (0 : ℤ))] [1, 0]
        none).rhotot_g.length = 2 * 1 ∧
    (∀ t ∈ (H5Charge.mk (some 1) [((0 : ℤ), (0 : ℤ), (0 : ℤ))] [1, 0]
        none).millerIndices, (npIndex3 1 1 1 t).isSome = true) ∧
    (H5Charge.mk (some 1) [((0 : ℤ), (0 : ℤ), (0 : ℤ))] [1, 0]
        none).rhodiff_g = none ∧
    ∃ res, read_charge_file_hdf5
        (H5Charge.mk (some 1) [((0 : ℤ), (0 : ℤ), (0 : ℤ))] [1, 0] none)
        1 1 1 = some res ∧
      ∀ x y z, res.2 x y z = 0 :=
  ⟨rfl, rfl, by decide, rfl,
    missing_rhodiff_gives_zero
      (H5Charge.mk (some 1) [((0 : ℤ), (0 : ℤ), (0 : ℤ))] [1, 0] none)
      1 1 1 1 rfl rfl (by decide) rfl⟩

/-! ### Lemmas about the `&input` rewrite -/

/-- A pattern that is a prefix of an append either is a prefix of the first
part or extends past it (so the first part is a prefix of the pattern). -/
theorem isPrefixOf_append_split (pat a b : List Char)
    (h : pat.isPrefixOf (a ++ b) = true) :
    pat.isPrefixOf a = true ∨ a.isPrefixOf pat = true := by
  induction a generalizing pat with
  | nil => right; cases pat <;> rfl
  | cons x a ih =>
      cases pat with
      | nil => left; rfl
      | cons c p =>
          rw [List.cons_append, show (c :: p).isPrefixOf (x :: (a ++ b)) =
            ((c == x) && p.isPrefixOf (a ++ b)) from rfl, Bool.and_eq_true] at h
          rcases ih p h.2 with h1 | h1
          · left
            rw [show (c :: p).isPrefixOf (x :: a) =
              ((c == x) && p.isPrefixOf a) from rfl, Bool.and_eq_true]
            exact ⟨h.1, h1⟩
          · right
            rw [show (x :: a).isPrefixOf (c :: p) =
              ((x == c) && a.isPrefixOf p) from rfl, Bool.and_eq_true]
            refine ⟨?_, h1⟩
            have := beq_iff_eq.mp h.1
            exact beq_iff_eq.mpr this.symm

/-- `containsPat` holds exactly when the pattern starts at some offset. -/
theorem containsPat_iff_drop (pat l : List Char) :
    containsPat pat l = true ↔ ∃ i, pat.isPrefixOf (l.drop i) = true := by
  induction l with
  | nil =>
      cases pat with
      | nil =>
          constructor
          · intro _; exact ⟨0, rfl⟩
          · intro _; rfl
      | cons c p =>
          constructor
          · intro h; exact absurd h (by simp [containsPat])
          · rintro ⟨i, hi⟩
            rw [List.drop_nil] at hi
            exact absurd hi (by simp [List.isPrefixOf])
  | cons c cs ih =>
      simp only [containsPat, Bool.or_eq_true, ih]
      constructor
      · rintro (h | ⟨i, hi⟩)
        · exact ⟨0, h⟩
        · exact ⟨i + 1, hi⟩
      · rintro ⟨i, hi⟩
        cases i with
        | zero => left; exact hi
        | succ j => right; exact ⟨j, hi⟩

/-- Pasting the replacement text `&amp;input` in front of pattern-free text
cannot create a `&input` occurrence. -/
theorem containsPat_ampRep_append (R : List Char)
    (hR : containsPat ampPat R = false) :
    containsPat ampPat (ampRep ++ R) = false := by
  by_contra hc
  rw [Bool.not_eq_false] at hc
  obtain ⟨i, hi⟩ := (containsPat_iff_drop _ _).mp hc
  by_cases hlen : i < ampRep.length
  · rw [List.drop_append_of_le_length (le_of_lt hlen)] at hi
    have hlen10 : i < 10 := by
      have : ampRep.length = 10 := by decide
      omega
    rcases isPrefixOf_append_split _ _ _ hi with h1 | h1
    · have hfalse : ∀ j, j < 10 → ampPat.isPrefixOf (ampRep.drop j) = false := by
        decide
      rw [hfalse i hlen10] at h1
      exact absurd h1 (by simp)
    · have hfalse : ∀ j, j < 10 → (ampRep.drop j).isPrefixOf ampPat = false := by
        decide
      rw [hfalse i hlen10] at h1
      exact absurd h1 (by simp)
  · push_neg at hlen
    have hdrop : (ampRep ++ R).drop i = R.drop (i - ampRep.length) := by
      conv_lhs => rw [show i = ampRep.length + (i - ampRep.length) by omega]
      exact List.drop_append _
    rw [hdrop] at hi
    have : containsPat ampPat R = true := (containsPat_iff_drop _ _).mpr ⟨_, hi⟩
    rw [hR] at this
    exact absurd this (by simp)

/-- Unfolding lemma for `replAmp` on a nonempty line. -/
theorem replAmp_cons (c : Char) (cs : List Char) :
    replAmp (c :: cs) = if ampPat.isPrefixOf (c :: cs) = true then
      ampRep ++ replAmp ((c :: cs).drop ampPat.length) else c :: replAmp cs := by
  rw [replAmp]

/-- A pattern containing no `&` that is a prefix of the rewritten text was
already a prefix of the original text (every inserted replacement starts
with `&`). -/
theorem isPrefixOf_replAmp : ∀ (cs t : List Char), '&' ∉ t →
    t.isPrefixOf (replAmp cs) = true → t.isPrefixOf cs = true
  | [], t, _, h => by
      rw [show replAmp [] = [] from by simp [replAmp]] at h
      cases t with
      | nil => rfl
      | cons e t' => exact absurd h (by simp [List.isPrefixOf])
  | c :: cs, t, hamp, h => by
      by_cases hp : ampPat.isPrefixOf (c :: cs) = true
      · cases t with
        | nil => rfl
        | cons e t' =>
            rw [replAmp_cons, if_pos hp] at h
            rw [show ampRep = '&' :: "amp;input".toList from rfl] at h
            rw [List.cons_append, show (e :: t').isPrefixOf
              ('&' :: ("amp;input".toList ++
                replAmp ((c :: cs).drop ampPat.length))) =
              ((e == '&') && t'.isPrefixOf ("amp;input".toList ++
                replAmp ((c :: cs).drop ampPat.length))) from rfl,
              Bool.and_eq_true] at h
            have he : e = '&' := beq_iff_eq.mp h.1
            exact absurd (he ▸ List.mem_cons_self e t') hamp
      · cases t with
        | nil => rfl
        | cons e t' =>
            rw [replAmp_cons, if_neg hp] at h
            rw [show (e :: t').isPrefixOf (c :: replAmp cs) =
              ((e == c) && t'.isPrefixOf (replAmp cs)) from rfl,
              Bool.and_eq_true] at h
            rw [show (e :: t').isPrefixOf (c :: cs) =
              ((e == c) && t'.isPrefixOf cs) from rfl, Bool.and_eq_true]
            have hamp' : '&' ∉ t' := fun hm => hamp (List.mem_cons_of_mem _ hm)
            exact ⟨h.1, isPrefixOf_replAmp cs t' hamp' h.2⟩
termination_by cs _ _ _ => cs.length

/-- After the rewrite, no literal `&input` remains anywhere in the line. -/
theorem replAmp_no_pat : ∀ s : List Char, containsPat ampPat (replAmp s) = false
  | [] => by simp [replAmp, containsPat, ampPat]
  | c :: cs => by
      by_cases hp : ampPat.isPrefixOf (c :: cs) = true
      · rw [replAmp_cons, if_pos hp]
        exact containsPat_ampRep_append _ (replAmp_no_pat ((c :: cs).drop ampPat.length))
      · rw [replAmp_cons, if_neg hp]
        have ih := replAmp_no_pat cs
        simp only [containsPat, ih, Bool.or_false]
        by_contra hpre
        rw [Bool.not_eq_false] at hpre
        rw [show ampPat = '&' :: "input".toList from rfl] at hpre
        rw [show ('&' :: "input".toList).isPrefixOf (c :: replAmp cs) =
          (('&' == c) && ("input".toList).isPrefixOf (replAmp cs)) from rfl,
          Bool.and_eq_true] at hpre
        have hin : ("input".toList).isPrefixOf cs = true :=
          isPrefixOf_replAmp cs "input".toList (by decide) hpre.2
        have : ampPat.isPrefixOf (c :: cs) = true := by
          rw [show ampPat = '&' :: "input".toList from rfl,
            show ('&' :: "input".toList).isPrefixOf (c :: cs) =
              (('&' == c) && ("input".toList).isPrefixOf cs) from rfl,
            Bool.and_eq_true]
          exact ⟨hpre.1, hin⟩
        exact hp this
termination_by s => s.length
decreasing_by
  · simp [ampPat, List.length_drop]
    omega
  · simp

/-- **C8.** Before structural parsing, the pseudopotential reader rewrites
every literal `&input` in each raw line to `&amp;input`: the text handed to
the tree parser is exactly the per-line rewritten text, no literal `&input`
survives the rewrite, and the rewrite of the bare pattern is exactly
`&amp;input`.  (Whether the rewritten text then parses is the external XML
library's business, modelled by the `etParse` parameter.) -/
theorem pseudo_amp_rewrite :
    (∀ (rawLines : List (List Char)) (etParse : List Char → Except Unit ETree)
        (pF : List Char → Option ℚ),
      read_pseudo_file rawLines etParse pF =
        match etParse ((rawLines.map replAmp).flatten) with
        | .error _ => Except.ok PseudoDict.empty
        | .ok psroot => readPseudoParsed pF psroot) ∧
    (∀ l : List Char, containsPat ampPat (replAmp l) = false) ∧
    replAmp ampPat = ampRep := by
  refine ⟨fun rawLines etParse pF => rfl, replAmp_no_pat, ?_⟩
  simp [replAmp, ampPat, ampRep]

/-! ### Failure behaviour of the pseudopotential reader -/

/-- `Except` bind on a success, for rewriting do-blocks. -/
theorem ebind_ok {ε α β : Type} (a : α) (f : α → Except ε β) :
    (Except.ok a >>= f) = f a := rfl

/-- `Except` bind on a failure. -/
theorem ebind_err {ε α β : Type} (e : ε) (f : α → Except ε β) :
    ((Except.error e : Except ε α) >>= f) = Except.error e := rfl

/-- `pure` in the `Except` monad. -/
theorem epure_ok {ε α : Type} (a : α) : (pure a : Except ε α) = Except.ok a := rfl

/-- **C6, counterexample.**  On input the tree parser rejects, the reader
does *not* fail with a format error: it silently returns the still-empty
dictionary (`return pseudo` in the `except ET.ParseError` arm). -/
theorem pseudo_parse_error_silent_empty :
    read_pseudo_file ["<UPF".toList] (fun _ => Except.error ())
      (fun _ => none) = Except.ok PseudoDict.empty := rfl

/-- **C6, amended.**  The reader's actual failure behaviour: input the tree
parser rejects yields the silently returned empty dictionary (not an
error), and a parsed tree that lacks the required `PP_HEADER` node (while
`PP_INFO` is present) raises a generic attribute error — the error type of
`None.items()` — not a dedicated format error. -/
theorem pseudo_failure_modes :
    (∀ (rawLines : List (List Char)) (etParse : List Char → Except Unit ETree)
        (pF : List Char → Option ℚ) (e : Unit),
      etParse (pseudoParserInput rawLines) = Except.error e →
      read_pseudo_file rawLines etParse pF = Except.ok PseudoDict.empty) ∧
    (∀ (rawLines : List (List Char)) (etParse : List Char → Except Unit ETree)
        (pF : List Char → Option ℚ) (root : ETree) (info : ETree),
      etParse (pseudoParserInput rawLines) = Except.ok root →
      findChild root "PP_INFO" = some info →
      findChild root "PP_HEADER" = none →
      read_pseudo_file rawLines etParse pF = Except.error PyErr.attrError) := by
  constructor
  · intro rawLines etParse pF e hparse
    unfold read_pseudo_file
    rw [hparse]
  · intro rawLines etParse pF root info hparse hinfo hheader
    unfold read_pseudo_file
    rw [hparse]
    show readPseudoParsed pF root = Except.error PyErr.attrError
    unfold readPseudoParsed
    rw [hinfo]
    rw [show expectNode (some info) = Except.ok info from rfl, ebind_ok]
    rw [hheader]
    rw [show expectNode (none : Option ETree) =
      Except.error PyErr.attrError from rfl, ebind_err]

/-- Witness for the amended C6 at concrete inputs: a rejecting parse yields
the empty dictionary, and a tree holding only `PP_INFO` raises the generic
attribute error. -/
theorem pseudo_failure_modes_witness :
    ((fun _ => (Except.error () : Except Unit ETree))
        (pseudoParserInput ([] : List (List Char))) = Except.error () ∧
      read_pseudo_file [] (fun _ => Except.error ()) (fun _ => none) =
        Except.ok PseudoDict.empty) ∧
    ((fun _ => (Except.ok (ETree.mk "UPF" [] none
          [ETree.mk "PP_INFO" [] (some "generated") []]) : Except Unit ETree))
        (pseudoParserInput ([] : List (List Char))) =
        Except.ok (ETree.mk "UPF" [] none
          [ETree.mk "PP_INFO" [] (some "generated") []]) ∧
      findChild (ETree.mk "UPF" [] none
          [ETree.mk "PP_INFO" [] (some "generated") []]) "PP_INFO" =
        some (ETree.mk "PP_INFO" [] (some "generated") []) ∧
      findChild (ETree.mk "UPF" [] none
          [ETree.mk "PP_INFO" [] (some "generated") []]) "PP_HEADER" = none ∧
      read_pseudo_file []
        (fun _ => Except.ok (ETree.mk "UPF" [] none
          [ETree.mk "PP_INFO" [] (some "generated") []]))
        (fun _ => none) = Except.error PyErr.attrError) :=
  ⟨⟨rfl, pseudo_failure_modes.1 [] (fun _ => Except.error ())
      (fun _ => none) () rfl⟩,
    ⟨rfl, rfl, rfl, pseudo_failure_modes.2 []
      (fun _ => Except.ok (ETree.mk "UPF" [] none
        [ETree.mk "PP_INFO" [] (some "generated") []]))
      (fun _ => none) _ _ rfl rfl rfl⟩⟩

/-! ### Lemmas about the tokenizer and the line iterator -/

/-- Scanning a whitespace-free run accumulates it into the pending token. -/
theorem pySplitGo_absorb (t : List Char)
    (hws : ∀ ch ∈ t, ¬ch.isWhitespace = true) :
    ∀ (acc cs : List Char),
      pySplitGo acc (t ++ cs) = pySplitGo (t.reverse ++ acc) cs := by
  induction t with
  | nil => intro acc cs; simp
  | cons c t ih =>
      intro acc cs
      have hc : ¬c.isWhitespace = true := hws c (List.mem_cons_self c t)
      simp only [List.cons_append, pySplitGo, List.append_eq]
      rw [if_neg hc]
      rw [ih (fun ch hch => hws ch (List.mem_cons_of_mem c hch)) (c :: acc) cs]
      congr 1
      simp [List.reverse_cons, List.append_assoc]

/-- Scanning a whitespace character flushes the pending token. -/
theorem pySplitGo_ws (w : Char) (hw : w.isWhitespace = true)
    (acc cs : List Char) :
    pySplitGo acc (w :: cs) =
      if acc = [] then pySplitGo [] cs else acc.reverse :: pySplitGo [] cs := by
  simp only [pySplitGo]
  rw [if_pos hw]

/-- Tokens split cleanly at an interior whitespace character. -/
theorem pySplitGo_append_ws (w : Char) (hw : w.isWhitespace = true) :
    ∀ (a acc b : List Char),
      pySplitGo acc (a ++ w :: b) = pySplitGo acc a ++ pySplitGo [] b := by
  intro a
  induction a with
  | nil =>
      intro acc b
      rw [List.nil_append, pySplitGo_ws w hw]
      by_cases hacc : acc = []
      · simp [pySplitGo, hacc]
      · simp [pySplitGo, hacc]
  | cons c a ih =>
      intro acc b
      by_cases hc : c.isWhitespace = true
      · by_cases hacc : acc = []
        · simp only [List.cons_append, pySplitGo]
          rw [if_pos hc, if_pos hc, if_pos hacc, if_pos hacc]
          exact ih [] b
        · simp only [List.cons_append, pySplitGo, List.append_eq]
          rw [if_pos hc, if_pos hc, if_neg hacc, if_neg hacc]
          rw [ih [] b]
          simp
      · simp only [List.cons_append, pySplitGo]
        rw [if_neg hc, if_neg hc]
        exact ih (c :: acc) b

/-- The tokenizer returns no token exactly on all-whitespace input. -/
theorem pySplitGo_eq_nil_iff : ∀ (l acc : List Char),
    (pySplitGo acc l = [] ↔ acc = [] ∧ ∀ ch ∈ l, ch.isWhitespace = true) := by
  intro l
  induction l with
  | nil =>
      intro acc
      by_cases hacc : acc = [] <;> simp [pySplitGo, hacc]
  | cons c cs ih =>
      intro acc
      by_cases hc : c.isWhitespace = true
      · by_cases hacc : acc = []
        · rw [pySplitGo_ws c hc, if_pos hacc, ih []]
          simp [hacc, hc]
        · rw [pySplitGo_ws c hc, if_neg hacc]
          simp [hacc]
      · simp only [pySplitGo]
        rw [if_neg hc]
        rw [ih (c :: acc)]
        simp only [List.cons_ne_nil, false_and, false_iff]
        intro h
        exact hc (h.2 c (List.mem_cons_self c cs))

/-- A line containing a non-whitespace character yields at least one token. -/
theorem pySplit_ne_nil (l : List Char) (h : ∃ ch ∈ l, ¬ch.isWhitespace = true) :
    pySplit l ≠ [] := by
  intro hnil
  obtain ⟨ch, hch, hws⟩ := h
  exact hws (((pySplitGo_eq_nil_iff l []).mp hnil).2 ch hch)

/-- Scanning a newline-free run accumulates it into the pending line. -/
theorem pyLinesGo_absorb (t : List Char) (hn : '\n' ∉ t) :
    ∀ (acc cs : List Char),
      pyLinesGo acc (t ++ cs) = pyLinesGo (t.reverse ++ acc) cs := by
  induction t with
  | nil => intro acc cs; simp
  | cons c t ih =>
      intro acc cs
      have hc : ¬(c = '\n') := fun h => hn (h ▸ List.mem_cons_self c t)
      simp only [List.cons_append, pyLinesGo, List.append_eq]
      rw [if_neg hc]
      rw [ih (fun h => hn (List.mem_cons_of_mem c h)) (c :: acc) cs]
      congr 1
      simp [List.reverse_cons, List.append_assoc]

/-- A newline closes the pending line. -/
theorem pyLinesGo_nl (acc cs : List Char) :
    pyLinesGo acc ('\n' :: cs) = acc.reverse :: pyLinesGo [] cs := by
  simp [pyLinesGo]

/-- Peeling one newline-terminated line off the front of the text. -/
theorem pyLines_cons_line (l rest : List Char) (hl : '\n' ∉ l) :
    pyLines (l ++ '\n' :: rest) = l :: pyLines rest := by
  rw [pyLines, pyLinesGo_absorb l hl [] ('\n' :: rest), pyLinesGo_nl]
  simp [pyLines]

/-- The line iterator recovers newline-terminated header lines placed in
front of arbitrary remaining text. -/
theorem pyLines_header (hls : List (List Char)) (V : List Char)
    (h : ∀ l ∈ hls, '\n' ∉ l) :
    pyLines (hls.flatMap (fun l => l ++ ['\n']) ++ V) = hls ++ pyLines V := by
  induction hls with
  | nil => simp
  | cons l hls ih =>
      have hl := h l (List.mem_cons_self l hls)
      simp only [List.flatMap_cons, List.append_assoc, List.singleton_append,
        List.cons_append]
      rw [pyLines_cons_line _ _ hl]
      simp only [List.nil_append]
      rw [ih (fun l' hl' => h l' (List.mem_cons_of_mem l hl'))]

/-- Splitting into lines and then into tokens per line is the same as
tokenizing the whole text: newlines are whitespace to the tokenizer. -/
theorem tokens_of_pyLinesGo : ∀ (s acc : List Char),
    (pyLinesGo acc s).flatMap pySplit = pySplit (acc.reverse ++ s) := by
  intro s
  induction s with
  | nil =>
      intro acc
      by_cases hacc : acc = []
      · simp [pyLinesGo, hacc, pySplit, pySplitGo]
      · simp [pyLinesGo, hacc, pySplit]
  | cons c cs ih =>
      intro acc
      by_cases hc : c = '\n'
      · subst hc
        rw [pyLinesGo_nl, List.flatMap_cons]
        rw [show pySplit (acc.reverse ++ '\n' :: cs) =
          pySplitGo [] (acc.reverse ++ '\n' :: cs) from rfl,
          pySplitGo_append_ws '\n' (by decide) acc.reverse [] cs]
        rw [ih []]
        simp [pySplit]
      · simp only [pyLinesGo]
        rw [if_neg hc, ih (c :: acc)]
        congr 1
        simp [List.reverse_cons, List.append_assoc]

/-- Tokens of the line decomposition are the tokens of the text. -/
theorem tokens_of_pyLines (s : List Char) :
    (pyLines s).flatMap pySplit = pySplit s := by
  rw [pyLines, tokens_of_pyLinesGo s []]
  rfl

/-! ### Lemmas about the value emission of `write_charge` -/

/-- The value section is empty or starts with the two-space separator. -/
theorem emitVals_head (fmt : ℚ → List Char) (vals : List ℚ) (c : ℕ) :
    emitVals fmt vals c = [] ∨ ∃ X, emitVals fmt vals c = ' ' :: X := by
  cases vals with
  | nil => left; rfl
  | cons v vs => right; exact ⟨_, rfl⟩

/-- A pending token is flushed by the end of input or any whitespace. -/
theorem pySplitGo_flush (acc : List Char) (hacc : acc ≠ []) (X : List Char)
    (hX : X = [] ∨ ∃ w X', X = w :: X' ∧ w.isWhitespace = true) :
    pySplitGo acc X = acc.reverse :: pySplitGo [] X := by
  rcases hX with hX | ⟨w, X', hX, hw⟩
  · subst hX
    simp [pySplitGo, hacc]
  · subst hX
    rw [pySplitGo_ws w hw acc X', if_neg hacc, pySplitGo_ws w hw [] X', if_pos rfl]

/-- The tokens of the emitted value section are exactly the formatted
values, in emission order; the running counter only moves line breaks
(whitespace) around. -/
theorem pySplit_emitVals (fmt : ℚ → List Char) :
    ∀ (vals : List ℚ),
      (∀ v ∈ vals, fmt v ≠ [] ∧ ∀ ch ∈ fmt v, ¬ch.isWhitespace = true) →
      ∀ c, pySplit (emitVals fmt vals c) = vals.map fmt := by
  intro vals
  induction vals with
  | nil => intro _ c; rfl
  | cons v vs ih =>
      intro hfmt c
      obtain ⟨hv, hvws⟩ := hfmt v (List.mem_cons_self v vs)
      have hrest := fun v' hv' => hfmt v' (List.mem_cons_of_mem v hv')
      have hsp : (' ' : Char).isWhitespace = true := by decide
      rw [show emitVals fmt (v :: vs) c = ' ' :: ' ' ::
        (fmt v ++ ((if (c + 1) % 5 = 0 then ['\n'] else []) ++
          emitVals fmt vs (c + 1))) from by
            simp [emitVals, List.append_assoc]]
      rw [pySplit, pySplitGo_ws ' ' hsp, if_pos rfl, pySplitGo_ws ' ' hsp,
        if_pos rfl]
      rw [pySplitGo_absorb (fmt v) hvws []
        ((if (c + 1) % 5 = 0 then ['\n'] else []) ++ emitVals fmt vs (c + 1))]
      rw [List.append_nil]
      have haccne : (fmt v).reverse ≠ [] := by
        simpa using hv
      rw [pySplitGo_flush (fmt v).reverse haccne _ ?_]
      · rw [List.reverse_reverse]
        congr 1
        by_cases h5 : (c + 1) % 5 = 0
        · rw [if_pos h5]
          rw [show ('\n' :: []) ++ emitVals fmt vs (c + 1) =
            '\n' :: emitVals fmt vs (c + 1) from rfl]
          rw [pySplitGo_ws '\n' (by decide), if_pos rfl]
          exact ih hrest (c + 1)
        · rw [if_neg h5, List.nil_append]
          exact ih hrest (c + 1)
      · by_cases h5 : (c + 1) % 5 = 0
        · right
          rw [if_pos h5]
          exact ⟨'\n', _, rfl, by decide⟩
        · rw [if_neg h5, List.nil_append]
          rcases emitVals_head fmt vs (c + 1) with hemp | ⟨X, hX⟩
          · left; exact hemp
          · right; exact ⟨' ', X, hX, hsp⟩

/-- Every line the value section produces carries a non-whitespace
character (so the reader's `linesplit[0]` access cannot fail on it). -/
theorem emit_lines_have_content (fmt : ℚ → List Char) :
    ∀ (vals : List ℚ),
      (∀ v ∈ vals, fmt v ≠ [] ∧ ∀ ch ∈ fmt v, ¬ch.isWhitespace = true) →
      ∀ (c : ℕ) (cur : List Char),
        (vals = [] → ∃ ch ∈ cur, ¬ch.isWhitespace = true) →
        ∀ l ∈ pyLinesGo cur (emitVals fmt vals c),
          ∃ ch ∈ l, ¬ch.isWhitespace = true := by
  intro vals
  induction vals with
  | nil =>
      intro _ c cur hcur l hl
      obtain ⟨ch, hch, hws⟩ := hcur rfl
      rw [show emitVals fmt [] c = [] from rfl] at hl
      by_cases hc : cur = []
      · rw [show pyLinesGo cur [] = if cur = [] then [] else [cur.reverse]
          from rfl, if_pos hc] at hl
        exact absurd hl (List.not_mem_nil l)
      · rw [show pyLinesGo cur [] = if cur = [] then [] else [cur.reverse]
          from rfl, if_neg hc] at hl
        rw [List.mem_singleton] at hl
        subst hl
        exact ⟨ch, List.mem_reverse.mpr hch, hws⟩
  | cons v vs ih =>
      intro hfmt c cur _ l hl
      obtain ⟨hv, hvws⟩ := hfmt v (List.mem_cons_self v vs)
      have hrest := fun v' hv' => hfmt v' (List.mem_cons_of_mem v hv')
      have hnl : '\n' ∉ (' ' :: ' ' :: fmt v) := by
        intro hmem
        rcases List.mem_cons.mp hmem with h | hmem
        · exact absurd h.symm (by decide)
        rcases List.mem_cons.mp hmem with h | hmem
        · exact absurd h.symm (by decide)
        · exact hvws '\n' hmem (by decide)
      rw [show emitVals fmt (v :: vs) c = (' ' :: ' ' :: fmt v) ++
        ((if (c + 1) % 5 = 0 then ['\n'] else []) ++
          emitVals fmt vs (c + 1)) from by
            simp [emitVals, List.append_assoc]] at hl
      rw [pyLinesGo_absorb (' ' :: ' ' :: fmt v) hnl cur] at hl
      have hcontent : ∃ ch ∈ (' ' :: ' ' :: fmt v).reverse ++ cur,
          ¬ch.isWhitespace = true := by
        obtain ⟨ch, hch⟩ := List.exists_mem_of_ne_nil (fmt v) hv
        refine ⟨ch, ?_, hvws ch hch⟩
        apply List.mem_append_left
        rw [List.mem_reverse]
        exact List.mem_cons_of_mem _ (List.mem_cons_of_mem _ hch)
      by_cases h5 : (c + 1) % 5 = 0
      · rw [if_pos h5, show (['\n'] : List Char) ++ emitVals fmt vs (c + 1) =
          '\n' :: emitVals fmt vs (c + 1) from rfl, pyLinesGo_nl] at hl
        rcases List.mem_cons.mp hl with hl | hl
        · subst hl
          obtain ⟨ch, hch, hws⟩ := hcontent
          exact ⟨ch, List.mem_reverse.mpr hch, hws⟩
        · cases vs with
          | nil => exact absurd hl (List.not_mem_nil l)
          | cons v' vs' =>
              exact ih hrest (c + 1) [] (fun h => absurd h (by simp)) l hl
      · rw [if_neg h5, List.nil_append] at hl
        exact ih hrest (c + 1) _ (fun _ => hcontent) l hl

/-! ### Lemmas about the reader loop -/

/-- When every token parses, the float loop collects them in order. -/
theorem pyFloats_ok (pF : List Char → Option ℚ) :
    ∀ (ts : List (List Char)), (∀ t ∈ ts, (pF t).isSome = true) →
      pyFloats pF ts = Except.ok (ts.filterMap pF) := by
  intro ts
  induction ts with
  | nil => intro _; rfl
  | cons t ts ih =>
      intro h
      obtain ⟨q, hq⟩ := Option.isSome_iff_exists.mp (h t (List.mem_cons_self t ts))
      rw [show pyFloats pF (t :: ts) = (pyFloat pF t >>= fun q =>
        pyFloats pF ts >>= fun qs => pure (q :: qs)) from rfl]
      rw [show pyFloat pF t = Except.ok q from by rw [pyFloat, hq], ebind_ok]
      rw [ih (fun t' ht' => h t' (List.mem_cons_of_mem t ht')), ebind_ok]
      rw [show (List.filterMap pF (t :: ts)) = q :: ts.filterMap pF from by
        rw [List.filterMap_cons, hq]]
      rfl

/-- A non-second line headed by the `'#'` token is skipped entirely. -/
theorem procLine_skip (pI : List Char → Option ℤ) (pF : List Char → Option ℚ)
    (st : RdState) (line : List Char) (hc : ¬(st.count = 1))
    (hhead : (pySplit line).head? = some ['#']) :
    procLine pI pF st line = Except.ok { st with count := st.count + 1 } := by
  unfold procLine
  rw [if_neg hc]
  rw [show pyIdx (pySplit line) 0 = Except.ok ['#'] from by
    rw [pyIdx, ← List.head?_eq_getElem?, hhead]]
  simp [ebind_ok, epure_ok]

/-- A non-second line not headed by `'#'` contributes all its parsed
tokens. -/
theorem procLine_vals (pI : List Char → Option ℤ) (pF : List Char → Option ℚ)
    (st : RdState) (line : List Char) (hc : ¬(st.count = 1))
    (hne : pySplit line ≠ [])
    (hhead : ¬((pySplit line).head? = some ['#']))
    (hp : ∀ t ∈ pySplit line, (pF t).isSome = true) :
    procLine pI pF st line = Except.ok
      { st with
          tempcharge := st.tempcharge ++ (pySplit line).filterMap pF,
          count := st.count + 1 } := by
  obtain ⟨h0, ts, hts⟩ := List.exists_cons_of_ne_nil hne
  have hh0 : (pySplit line).head? = some h0 := by rw [hts]; rfl
  have hne0 : h0 ≠ ['#'] := fun h => hhead (by rw [hh0, h])
  unfold procLine
  rw [if_neg hc]
  rw [show pyIdx (pySplit line) 0 = Except.ok h0 from by
    rw [pyIdx, ← List.head?_eq_getElem?, hh0]]
  rw [pyFloats_ok pF _ hp]
  simp [ebind_ok, epure_ok, hne0]

/-- The second line (`count == 1`): grid sizes are taken from tokens 1, 2, 3
and, when its first token is `'#'`, nothing else happens. -/
theorem procLine_dims_skip (pI : List Char → Option ℤ)
    (pF : List Char → Option ℚ) (st : RdState) (line : List Char)
    (t1 t2 t3 : List Char) (rtoks : List (List Char)) (d1 d2 d3 : ℤ)
    (hc : st.count = 1)
    (h1 : pySplit line = ['#'] :: t1 :: t2 :: t3 :: rtoks)
    (hd1 : pI t1 = some d1) (hd2 : pI t2 = some d2) (hd3 : pI t3 = some d3) :
    procLine pI pF st line = Except.ok
      { st with nr1 := d1, nr2 := d2, nr3 := d3, count := st.count + 1 } := by
  unfold procLine
  rw [if_pos hc]
  rw [show pyIdx (pySplit line) 1 = Except.ok t1 from by simp [pyIdx, h1],
    ebind_ok, show pyInt pI t1 = Except.ok d1 from by rw [pyInt, hd1], ebind_ok,
    show pyIdx (pySplit line) 2 = Except.ok t2 from by simp [pyIdx, h1],
    ebind_ok, show pyInt pI t2 = Except.ok d2 from by rw [pyInt, hd2], ebind_ok,
    show pyIdx (pySplit line) 3 = Except.ok t3 from by simp [pyIdx, h1],
    ebind_ok, show pyInt pI t3 = Except.ok d3 from by rw [pyInt, hd3], ebind_ok,
    show (pure { st with nr1 := d1, nr2 := d2, nr3 := d3 } :
      Except PyErr RdState) = Except.ok
        { st with nr1 := d1, nr2 := d2, nr3 := d3 } from rfl, ebind_ok]
  simp only []
  rw [show pyIdx (pySplit line) 0 = Except.ok ['#'] from by simp [pyIdx, h1]]
  simp [ebind_ok, epure_ok]

/-- The second line when its first token is not `'#'`: grid sizes are taken
from tokens 1, 2, 3 *and* all its tokens are collected as values. -/
theorem procLine_dims_vals (pI : List Char → Option ℤ)
    (pF : List Char → Option ℚ) (st : RdState) (line : List Char)
    (t0 t1 t2 t3 : List Char) (rtoks : List (List Char)) (d1 d2 d3 : ℤ)
    (hc : st.count = 1)
    (h1 : pySplit line = t0 :: t1 :: t2 :: t3 :: rtoks)
    (hd1 : pI t1 = some d1) (hd2 : pI t2 = some d2) (hd3 : pI t3 = some d3)
    (hne0 : ¬(t0 = ['#']))
    (hp : ∀ t ∈ pySplit line, (pF t).isSome = true) :
    procLine pI pF st line = Except.ok
      { st with
          tempcharge := st.tempcharge ++ (pySplit line).filterMap pF,
          nr1 := d1, nr2 := d2, nr3 := d3, count := st.count + 1 } := by
  unfold procLine
  rw [if_pos hc]
  rw [show pyIdx (pySplit line) 1 = Except.ok t1 from by simp [pyIdx, h1],
    ebind_ok, show pyInt pI t1 = Except.ok d1 from by rw [pyInt, hd1], ebind_ok,
    show pyIdx (pySplit line) 2 = Except.ok t2 from by simp [pyIdx, h1],
    ebind_ok, show pyInt pI t2 = Except.ok d2 from by rw [pyInt, hd2], ebind_ok,
    show pyIdx (pySplit line) 3 = Except.ok t3 from by simp [pyIdx, h1],
    ebind_ok, show pyInt pI t3 = Except.ok d3 from by rw [pyInt, hd3], ebind_ok,
    show (pure { st with nr1 := d1, nr2 := d2, nr3 := d3 } :
      Except PyErr RdState) = Except.ok
        { st with nr1 := d1, nr2 := d2, nr3 := d3 } from rfl, ebind_ok]
  simp only []
  rw [show pyIdx (pySplit line) 0 = Except.ok t0 from by simp [pyIdx, h1]]
  rw [pyFloats_ok pF _ hp]
  simp [ebind_ok, epure_ok, hne0]

/-- Processing lines after the second: `'#'`-headed lines are skipped, all
other lines contribute their parsed tokens, in file order. -/
theorem readLoop_tail (pI : List Char → Option ℤ) (pF : List Char → Option ℚ) :
    ∀ (ls : List (List Char)) (st : RdState), 2 ≤ st.count →
      (∀ l ∈ ls, pySplit l ≠ []) →
      (∀ l ∈ ls, ¬((pySplit l).head? = some ['#']) →
        ∀ t ∈ pySplit l, (pF t).isSome = true) →
      ls.foldlM (procLine pI pF) st = Except.ok
        { st with
            tempcharge := st.tempcharge ++
              (ls.filter (fun l => !((pySplit l).head? == some ['#']))).flatMap
                (fun l => (pySplit l).filterMap pF),
            count := st.count + ls.length } := by
  intro ls
  induction ls with
  | nil =>
      intro st _ _ _
      simp [List.foldlM_nil, epure_ok]
  | cons l ls ih =>
      intro st hst hne hp
      rw [List.foldlM_cons]
      by_cases hh : (pySplit l).head? = some ['#']
      · rw [procLine_skip pI pF st l (by omega) hh, ebind_ok]
        rw [ih { st with count := st.count + 1 } (by show 2 ≤ st.count + 1; omega)
          (fun l' h => hne l' (List.mem_cons_of_mem l h))
          (fun l' h => hp l' (List.mem_cons_of_mem l h))]
        rw [List.filter_cons]
        rw [show (!((pySplit l).head? == some (['#'] : List Char))) = false from by
          rw [hh]; simp]
        simp only [Bool.false_eq_true, if_false, Except.ok.injEq]
        obtain ⟨tc, cnt, a, b, c⟩ := st
        simp only [RdState.mk.injEq]
        refine ⟨?_, ?_, ?_, ?_, ?_⟩ <;>
          (first | trivial | omega | (simp only [List.length_cons]; omega) | simp [List.append_assoc])
      · rw [procLine_vals pI pF st l (by omega)
          (hne l (List.mem_cons_self l ls)) hh
          (hp l (List.mem_cons_self l ls) hh), ebind_ok]
        rw [ih _ (by show 2 ≤ st.count + 1; omega)
          (fun l' h => hne l' (List.mem_cons_of_mem l h))
          (fun l' h => hp l' (List.mem_cons_of_mem l h))]
        rw [List.filter_cons]
        rw [show (!((pySplit l).head? == some (['#'] : List Char))) = true from by
          rcases hl : (pySplit l).head? with _ | t
          · simp
          · have : ¬(t = ['#']) := fun h => hh (by rw [hl, h])
            simp [this]]
        simp only [if_true, List.flatMap_cons, Except.ok.injEq]
        obtain ⟨tc, cnt, a, b, c⟩ := st
        simp only [RdState.mk.injEq]
        refine ⟨?_, ?_, ?_, ?_, ?_⟩ <;>
          (first | trivial | omega | (simp only [List.length_cons]; omega) | simp [List.append_assoc])

/-- The whole line loop on a file with at least two lines: the grid sizes
come from tokens 1, 2, 3 of the second line (whether or not it starts with
`'#'`), and exactly the lines whose first token is not `'#'` contribute
their tokens, in file order. -/
theorem readLoop_structured (pI : List Char → Option ℤ)
    (pF : List Char → Option ℚ) (l0 l1 : List Char) (rest : List (List Char))
    (t0 t1 t2 t3 : List Char) (rtoks : List (List Char)) (d1 d2 d3 : ℤ)
    (h0 : pySplit l0 ≠ [])
    (h0p : ¬((pySplit l0).head? = some ['#']) →
      ∀ t ∈ pySplit l0, (pF t).isSome = true)
    (h1 : pySplit l1 = t0 :: t1 :: t2 :: t3 :: rtoks)
    (hd1 : pI t1 = some d1) (hd2 : pI t2 = some d2) (hd3 : pI t3 = some d3)
    (h1p : ¬(t0 = ['#']) → ∀ t ∈ pySplit l1, (pF t).isSome = true)
    (hr : ∀ l ∈ rest, pySplit l ≠ [])
    (hrp : ∀ l ∈ rest, ¬((pySplit l).head? = some ['#']) →
      ∀ t ∈ pySplit l, (pF t).isSome = true) :
    readLoop pI pF (l0 :: l1 :: rest) = Except.ok
      { tempcharge := ((l0 :: l1 :: rest).filter
          (fun l => !((pySplit l).head? == some ['#']))).flatMap
          (fun l => (pySplit l).filterMap pF),
        count := 2 + rest.length,
        nr1 := d1, nr2 := d2, nr3 := d3 } := by
  have hh1 : (pySplit l1).head? = some t0 := by rw [h1]; rfl
  rw [readLoop, List.foldlM_cons]
  by_cases hh0 : (pySplit l0).head? = some ['#']
  · rw [procLine_skip pI pF initRd l0 (by simp [initRd]) hh0, ebind_ok,
      List.foldlM_cons]
    by_cases hht : t0 = ['#']
    · rw [procLine_dims_skip pI pF _ l1 t1 t2 t3 rtoks d1 d2 d3 (by rfl)
        (hht ▸ h1) hd1 hd2 hd3, ebind_ok]
      rw [readLoop_tail pI pF rest _ (by simp [initRd]) hr hrp]
      rw [List.filter_cons, List.filter_cons]
      rw [show (!((pySplit l0).head? == some (['#'] : List Char))) = false from by
        rw [hh0]; simp]
      rw [show (!((pySplit l1).head? == some (['#'] : List Char))) = false from by
        rw [hh1, hht]; simp]
      simp only [Bool.false_eq_true, if_false, Except.ok.injEq, RdState.mk.injEq,
        initRd]
      refine ⟨?_, ?_, ?_, ?_, ?_⟩ <;>
          (first | trivial | omega | (simp only [List.length_cons]; omega) | simp [List.append_assoc])
    · rw [procLine_dims_vals pI pF _ l1 t0 t1 t2 t3 rtoks d1 d2 d3 (by rfl)
        h1 hd1 hd2 hd3 hht (h1p hht), ebind_ok]
      rw [readLoop_tail pI pF rest _ (by simp [initRd]) hr hrp]
      rw [List.filter_cons, List.filter_cons]
      rw [show (!((pySplit l0).head? == some (['#'] : List Char))) = false from by
        rw [hh0]; simp]
      rw [show (!((pySplit l1).head? == some (['#'] : List Char))) = true from by
        rw [hh1]; simp [hht]]
      simp only [Bool.false_eq_true, if_false, if_true, List.flatMap_cons,
        Except.ok.injEq, RdState.mk.injEq, initRd]
      refine ⟨?_, ?_, ?_, ?_, ?_⟩ <;>
          (first | trivial | omega | (simp only [List.length_cons]; omega) | simp [List.append_assoc])
  · rw [procLine_vals pI pF initRd l0 (by simp [initRd]) h0 hh0 (h0p hh0),
      ebind_ok, List.foldlM_cons]
    by_cases hht : t0 = ['#']
    · rw [procLine_dims_skip pI pF _ l1 t1 t2 t3 rtoks d1 d2 d3 (by rfl)
        (hht ▸ h1) hd1 hd2 hd3, ebind_ok]
      rw [readLoop_tail pI pF rest _ (by simp [initRd]) hr hrp]
      rw [List.filter_cons, List.filter_cons]
      rw [show (!((pySplit l0).head? == some (['#'] : List Char))) = true from by
        rcases hl : (pySplit l0).head? with _ | t
        · simp
        · have : ¬(t = ['#']) := fun h => hh0 (by rw [hl, h])
          simp [this]]
      rw [show (!((pySplit l1).head? == some (['#'] : List Char))) = false from by
        rw [hh1, hht]; simp]
      simp only [Bool.false_eq_true, if_false, if_true, List.flatMap_cons,
        Except.ok.injEq, RdState.mk.injEq, initRd]
      refine ⟨?_, ?_, ?_, ?_, ?_⟩ <;>
          (first | trivial | omega | (simp only [List.length_cons]; omega) | simp [List.append_assoc])
    · rw [procLine_dims_vals pI pF _ l1 t0 t1 t2 t3 rtoks d1 d2 d3 (by rfl)
        h1 hd1 hd2 hd3 hht (h1p hht), ebind_ok]
      rw [readLoop_tail pI pF rest _ (by simp [initRd]) hr hrp]
      rw [List.filter_cons, List.filter_cons]
      rw [show (!((pySplit l0).head? == some (['#'] : List Char))) = true from by
        rcases hl : (pySplit l0).head? with _ | t
        · simp
        · have : ¬(t = ['#']) := fun h => hh0 (by rw [hl, h])
          simp [this]]
      rw [show (!((pySplit l1).head? == some (['#'] : List Char))) = true from by
        rw [hh1]; simp [hht]]
      simp only [if_true, List.flatMap_cons, Except.ok.injEq, RdState.mk.injEq,
        initRd]
      refine ⟨?_, ?_, ?_, ?_, ?_⟩ <;>
          (first | trivial | omega | (simp only [List.length_cons]; omega) | simp [List.append_assoc])

/-! ### Indexing lemmas for the nested iteration order -/

/-- Length of a constant-block-size flat map over `range`. -/
theorem flatMap_range_length {α : Type} (f : ℕ → List α) (n m : ℕ)
    (hf : ∀ i < n, (f i).length = m) :
    ((List.range n).flatMap f).length = n * m := by
  induction n with
  | zero => simp
  | succ n ih =>
      rw [List.range_succ, List.flatMap_append,
        List.length_append, ih (fun i hi => hf i (by omega))]
      rw [show (List.flatMap [n] f).length = (f n).length from by simp]
      rw [hf n (by omega)]
      ring

/-- Indexing into a constant-block-size flat map over `range`. -/
theorem flatMap_range_getElem {α : Type} (f : ℕ → List α) (n m : ℕ)
    (hf : ∀ i < n, (f i).length = m) (q r : ℕ) (hq : q < n) (hr : r < m) :
    ((List.range n).flatMap f)[q * m + r]? = (f q)[r]? := by
  induction n with
  | zero => omega
  | succ n ih =>
      rw [List.range_succ, List.flatMap_append]
      by_cases hqn : q < n
      · rw [List.getElem?_append_left]
        · exact ih (fun i hi => hf i (by omega)) hqn
        · rw [flatMap_range_length f n m (fun i hi => hf i (by omega))]
          calc q * m + r < q * m + m := by omega
            _ = (q + 1) * m := by ring
            _ ≤ n * m := Nat.mul_le_mul_right m (by omega)
      · have hq' : q = n := by omega
        subst hq'
        have hlen : ((List.range q).flatMap f).length = q * m :=
          flatMap_range_length f q m (fun i hi => hf i (by omega))
        rw [List.getElem?_append_right (by omega)]
        rw [hlen]
        rw [show q * m + r - q * m = r from by omega]
        simp

/-- Length of the writer's flat value sequence. -/
theorem flatValues_length (charge : Grid3 ℚ) (n1 n2 n3 : ℕ) :
    (flatValues charge n1 n2 n3).length = n3 * (n2 * n1) := by
  apply flatMap_range_length
  intro z _
  apply flatMap_range_length
  intro y _
  simp

/-- The value at flat position `z*(n2*n1) + (y*n1 + x)` is the grid cell
`(x, y, z)`: the 1st axis varies fastest. -/
theorem flatValues_getElem (charge : Grid3 ℚ) (n1 n2 n3 x y z : ℕ)
    (hx : x < n1) (hy : y < n2) (hz : z < n3) :
    (flatValues charge n1 n2 n3)[z * (n2 * n1) + (y * n1 + x)]? =
      some (charge x y z) := by
  rw [flatValues]
  rw [flatMap_range_getElem _ n3 (n2 * n1)
    (fun i _ => flatMap_range_length _ n2 n1 (fun j _ => by simp))
    z (y * n1 + x) hz (by
      calc y * n1 + x < y * n1 + n1 := by omega
        _ = (y + 1) * n1 := by ring
        _ ≤ n2 * n1 := Nat.mul_le_mul_right n1 (by omega))]
  rw [flatMap_range_getElem _ n2 n1 (fun j _ => by simp) y x hy hx]
  simp [List.getElem?_range hx]

/-- Token parsing distributes over per-line collection. -/
theorem filterMap_flatMap_lines (pF : List Char → Option ℚ)
    (lines : List (List Char)) :
    lines.flatMap (fun l => (pySplit l).filterMap pF) =
      (lines.flatMap pySplit).filterMap pF := by
  induction lines with
  | nil => rfl
  | cons l lines ih => simp [List.flatMap_cons, List.filterMap_append, ih]

/-- When every formatted value parses, parsing the formatted token stream
recovers one parsed value per original value, in order. -/
theorem filterMap_map_all_some (pF : List Char → Option ℚ)
    (fmt : ℚ → List Char) :
    ∀ (vals : List ℚ), (∀ v ∈ vals, (pF (fmt v)).isSome = true) →
      (vals.map fmt).filterMap pF =
        vals.map (fun v => (pF (fmt v)).getD 0) := by
  intro vals
  induction vals with
  | nil => intro _; rfl
  | cons v vs ih =>
      intro h
      obtain ⟨q, hq⟩ := Option.isSome_iff_exists.mp
        (h v (List.mem_cons_self v vs))
      rw [List.map_cons, List.filterMap_cons, hq, List.map_cons,
        ih (fun v' hv' => h v' (List.mem_cons_of_mem v hv'))]
      rw [show (pF (fmt v)).getD 0 = q from by rw [hq]; rfl]

/-- The refold stage of `read_postqe_output_file`, given the loop result:
with non-negative sizes it succeeds exactly when at least `nr3*nr2*nr1`
values were collected, silently ignoring any extras, and fails with the
generic index error otherwise. -/
theorem read_postqe_refold (pI : List Char → Option ℤ)
    (pF : List Char → Option ℚ) (lines : List (List Char)) (st : RdState)
    (hloop : readLoop pI pF lines = Except.ok st)
    (h1 : 0 ≤ st.nr1) (h2 : 0 ≤ st.nr2) (h3 : 0 ≤ st.nr3) :
    read_postqe_output_file pI pF lines =
      if st.nr3.toNat * st.nr2.toNat * st.nr1.toNat ≤ st.tempcharge.length
      then Except.ok (fun x y z =>
        (st.tempcharge[z * (st.nr2.toNat * st.nr1.toNat) +
          y * st.nr1.toNat + x]?).getD 0)
      else Except.error PyErr.indexError := by
  unfold read_postqe_output_file
  rw [hloop, ebind_ok]
  rw [if_neg (by omega)]

/-- **C10.** The text codec reader classifies a line as a header to skip iff
the line's first whitespace-delimited token is exactly the single character
`'#'` — only the non-`'#'`-headed lines contribute to `collectedTokens` —
and it takes the grid dimensions from whitespace tokens 1, 2 and 3 of the
file's second line, whether or not that line begins with `'#'`. -/
theorem reader_hash_classification (pI : List Char → Option ℤ)
    (pF : List Char → Option ℚ) (l0 l1 : List Char) (rest : List (List Char))
    (t0 t1 t2 t3 : List Char) (rtoks : List (List Char)) (d1 d2 d3 : ℤ)
    (h0 : pySplit l0 ≠ [])
    (h0p : ¬((pySplit l0).head? = some ['#']) →
      ∀ t ∈ pySplit l0, (pF t).isSome = true)
    (h1 : pySplit l1 = t0 :: t1 :: t2 :: t3 :: rtoks)
    (hd1 : pI t1 = some d1) (hd2 : pI t2 = some d2) (hd3 : pI t3 = some d3)
    (h1p : ¬(t0 = ['#']) → ∀ t ∈ pySplit l1, (pF t).isSome = true)
    (hr : ∀ l ∈ rest, pySplit l ≠ [])
    (hrp : ∀ l ∈ rest, ¬((pySplit l).head? = some ['#']) →
      ∀ t ∈ pySplit l, (pF t).isSome = true) :
    readLoop pI pF (l0 :: l1 :: rest) = Except.ok
      { tempcharge := collectedTokens pF (l0 :: l1 :: rest),
        count := 2 + rest.length, nr1 := d1, nr2 := d2, nr3 := d3 } :=
  readLoop_structured pI pF l0 l1 rest t0 t1 t2 t3 rtoks d1 d2 d3
    h0 h0p h1 hd1 hd2 hd3 h1p hr hrp

/-- Witness for C10: the header line is skipped, the second line does *not*
begin with `'#'` and still supplies the grid sizes (1,1,2) from its tokens
1–3 while its own tokens are also collected as values. -/
theorem reader_hash_classification_witness :
    (pySplit "# hdr".toList ≠ []) ∧
    ((¬((pySplit "# hdr".toList).head? = some ['#'])) →
      ∀ t ∈ pySplit "# hdr".toList,
        ((fun t => if t = ['7'] then some (7 : ℚ) else if t = ['1'] then
          some 1 else if t = ['2'] then some 2 else if t = ['5'] then
          some 5 else none) t).isSome = true) ∧
    (pySplit "7 1 1 2".toList = ['7'] :: ['1'] :: ['1'] :: ['2'] :: []) ∧
    ((fun t => if t = ['1'] then some (1 : ℤ) else if t = ['2'] then
      some 2 else none) ['1'] = some 1) ∧
    ((fun t => if t = ['1'] then some (1 : ℤ) else if t = ['2'] then
      some 2 else none) ['1'] = some 1) ∧
    ((fun t => if t = ['1'] then some (1 : ℤ) else if t = ['2'] then
      some 2 else none) ['2'] = some 2) ∧
    ((¬((['7'] : List Char) = ['#'])) → ∀ t ∈ pySplit "7 1 1 2".toList,
      ((fun t => if t = ['7'] then some (7 : ℚ) else if t = ['1'] then
        some 1 else if t = ['2'] then some 2 else if t = ['5'] then
        some 5 else none) t).isSome = true) ∧
    (∀ l ∈ ["5 5".toList], pySplit l ≠ []) ∧
    (∀ l ∈ ["5 5".toList], ¬((pySplit l).head? = some ['#']) →
      ∀ t ∈ pySplit l,
        ((fun t => if t = ['7'] then some (7 : ℚ) else if t = ['1'] then
          some 1 else if t = ['2'] then some 2 else if t = ['5'] then
          some 5 else none) t).isSome = true) ∧
    readLoop
      (fun t => if t = ['1'] then some (1 : ℤ) else if t = ['2'] then
        some 2 else none)
      (fun t => if t = ['7'] then some (7 : ℚ) else if t = ['1'] then
        some 1 else if t = ['2'] then some 2 else if t = ['5'] then
        some 5 else none)
      ("# hdr".toList :: "7 1 1 2".toList :: ["5 5".toList]) = Except.ok
      { tempcharge := collectedTokens
          (fun t => if t = ['7'] then some (7 : ℚ) else if t = ['1'] then
            some 1 else if t = ['2'] then some 2 else if t = ['5'] then
            some 5 else none)
          ("# hdr".toList :: "7 1 1 2".toList :: ["5 5".toList]),
        count := 2 + ["5 5".toList].length, nr1 := 1, nr2 := 1, nr3 := 2 } :=
  ⟨by decide, by decide, by decide, by decide, by decide, by decide,
    by decide, by decide, by decide,
    reader_hash_classification _ _ _ _ _ ['7'] ['1'] ['1'] ['2'] [] 1 1 2
      (by decide) (by decide) (by decide) (by decide) (by decide) (by decide)
      (by decide) (by decide) (by decide)⟩

/-- **C4, counterexample.** A file whose value section holds more
whitespace tokens (2) than `nr1*nr2*nr3` (= 1) is silently accepted: the
reader returns a grid instead of failing — no `FormatError` (which does not
exist in the code) and no error at all. -/
theorem reader_extra_tokens_silent :
    (read_postqe_output_file
      (fun t => if t = ['1'] then some (1 : ℤ) else none)
      (fun t => if t = ['5'] then some (5 : ℚ) else if t = ['7'] then
        some 7 else none)
      ["# hdr".toList, "# 1 1 1".toList, "5 7".toList]).isOk = true ∧
    (collectedTokens
      (fun t => if t = ['5'] then some (5 : ℚ) else if t = ['7'] then
        some 7 else none)
      ["# hdr".toList, "# 1 1 1".toList, "5 7".toList]).length = 2 := by
  constructor <;> decide

/-- **C4, amended.** The reader performs no count validation and never
raises a dedicated format error: with non-negative parsed sizes, when the
collected value tokens number at least `nr3*nr2*nr1` the reader silently
returns the grid refolded from the first `nr3*nr2*nr1` of them, ignoring
extras; when they number fewer it fails with the generic index error of
reading past the end of `tempcharge`. -/
theorem reader_token_count_behavior (pI : List Char → Option ℤ)
    (pF : List Char → Option ℚ) (l0 l1 : List Char) (rest : List (List Char))
    (t0 t1 t2 t3 : List Char) (rtoks : List (List Char)) (d1 d2 d3 : ℤ)
    (h0 : pySplit l0 ≠ [])
    (h0p : ¬((pySplit l0).head? = some ['#']) →
      ∀ t ∈ pySplit l0, (pF t).isSome = true)
    (h1 : pySplit l1 = t0 :: t1 :: t2 :: t3 :: rtoks)
    (hd1 : pI t1 = some d1) (hd2 : pI t2 = some d2) (hd3 : pI t3 = some d3)
    (h1p : ¬(t0 = ['#']) → ∀ t ∈ pySplit l1, (pF t).isSome = true)
    (hr : ∀ l ∈ rest, pySplit l ≠ [])
    (hrp : ∀ l ∈ rest, ¬((pySplit l).head? = some ['#']) →
      ∀ t ∈ pySplit l, (pF t).isSome = true)
    (hn1 : 0 ≤ d1) (hn2 : 0 ≤ d2) (hn3 : 0 ≤ d3) :
    (d3.toNat * d2.toNat * d1.toNat ≤
        (collectedTokens pF (l0 :: l1 :: rest)).length →
      read_postqe_output_file pI pF (l0 :: l1 :: rest) = Except.ok
        (fun x y z => ((collectedTokens pF (l0 :: l1 :: rest))[
          z * (d2.toNat * d1.toNat) + y * d1.toNat + x]?).getD 0)) ∧
    ((collectedTokens pF (l0 :: l1 :: rest)).length <
        d3.toNat * d2.toNat * d1.toNat →
      read_postqe_output_file pI pF (l0 :: l1 :: rest) =
        Except.error PyErr.indexError) := by
  have hloop := readLoop_structured pI pF l0 l1 rest t0 t1 t2 t3 rtoks d1 d2 d3
    h0 h0p h1 hd1 hd2 hd3 h1p hr hrp
  have href := read_postqe_refold pI pF (l0 :: l1 :: rest) _ hloop hn1 hn2 hn3
  dsimp only at href
  constructor
  · intro hle
    unfold collectedTokens at hle
    rw [href, if_pos hle]
    rfl
  · intro hlt
    unfold collectedTokens at hlt
    rw [href, if_neg (by omega)]

/-- Witness for the amended C4 at the over-full file of the counterexample:
the reader silently returns the grid built from the first token. -/
theorem reader_token_count_behavior_witness :
    (pySplit "# hdr".toList ≠ []) ∧
    (pySplit "# 1 1 1".toList = ['#'] :: ['1'] :: ['1'] :: ['1'] :: []) ∧
    (∀ l ∈ ["5 7".toList], pySplit l ≠ []) ∧
    ((1 : ℤ).toNat * (1 : ℤ).toNat * (1 : ℤ).toNat ≤
      (collectedTokens
        (fun t => if t = ['5'] then some (5 : ℚ) else if t = ['7'] then
          some 7 else none)
        ("# hdr".toList :: "# 1 1 1".toList :: ["5 7".toList])).length) ∧
    read_postqe_output_file
      (fun t => if t = ['1'] then some (1 : ℤ) else none)
      (fun t => if t = ['5'] then some (5 : ℚ) else if t = ['7'] then
        some 7 else none)
      ("# hdr".toList :: "# 1 1 1".toList :: ["5 7".toList]) = Except.ok
      (fun x y z => ((collectedTokens
        (fun t => if t = ['5'] then some (5 : ℚ) else if t = ['7'] then
          some 7 else none)
        ("# hdr".toList :: "# 1 1 1".toList :: ["5 7".toList]))[
          z * ((1 : ℤ).toNat * (1 : ℤ).toNat) + y * (1 : ℤ).toNat + x]?).getD 0) :=
  ⟨by decide, by decide, by decide, by decide,
    (reader_token_count_behavior
      (fun t => if t = ['1'] then some (1 : ℤ) else none)
      (fun t => if t = ['5'] then some (5 : ℚ) else if t = ['7'] then
        some 7 else none)
      "# hdr".toList "# 1 1 1".toList ["5 7".toList]
      ['#'] ['1'] ['1'] ['1'] [] 1 1 1
      (by decide) (by decide) (by decide) (by decide) (by decide) (by decide)
      (by decide) (by decide) (by decide) (by decide) (by decide)
      (by decide)).1 (by decide)⟩

/-- **C2.** Round trip of the text codec: writing a field with positive
dimensions under a `'#'`-commented header whose second line carries the grid
dimensions in tokens 1–3, then reading the file back, succeeds and recovers
every cell up to the format/parse round-off `pF ∘ fmt` (the abstract model
of the 9-digit scientific rendering and `float(...)`). -/
theorem codec_round_trip (pI : List Char → Option ℤ)
    (pF : List Char → Option ℚ) (fmt : ℚ → List Char)
    (charge : Grid3 ℚ) (n1 n2 n3 : ℕ)
    (hp1 : 0 < n1) (hp2 : 0 < n2) (hp3 : 0 < n3)
    (hl0 hl1 : List Char) (hrest : List (List Char))
    (t1 t2 t3 : List Char) (rtoks : List (List Char))
    (hhead : ∀ l ∈ hl0 :: hl1 :: hrest,
      '\n' ∉ l ∧ (pySplit l).head? = some ['#'])
    (hdim : pySplit hl1 = ['#'] :: t1 :: t2 :: t3 :: rtoks)
    (hd1 : pI t1 = some (n1 : ℤ)) (hd2 : pI t2 = some (n2 : ℤ))
    (hd3 : pI t3 = some (n3 : ℤ))
    (hfmt : ∀ v ∈ flatValues charge n1 n2 n3,
      fmt v ≠ [] ∧ (∀ ch ∈ fmt v, ¬ch.isWhitespace = true) ∧
      fmt v ≠ ['#'] ∧ (pF (fmt v)).isSome = true) :
    ∃ g, read_postqe_output_file pI pF
        (pyLines (write_charge
          ((hl0 :: hl1 :: hrest).flatMap (fun l => l ++ ['\n']))
          fmt charge n1 n2 n3)) = Except.ok g ∧
      ∀ x y z, x < n1 → y < n2 → z < n3 →
        pF (fmt (charge x y z)) = some (g x y z) := by
  classical
  have hfmt1 : ∀ v ∈ flatValues charge n1 n2 n3,
      fmt v ≠ [] ∧ ∀ ch ∈ fmt v, ¬ch.isWhitespace = true :=
    fun v hv => ⟨(hfmt v hv).1, (hfmt v hv).2.1⟩
  have hvne : flatValues charge n1 n2 n3 ≠ [] := by
    intro hnil
    have := flatValues_length charge n1 n2 n3
    rw [hnil] at this
    simp at this
    rcases this with h | h | h <;> omega
  -- the file decomposes into the header lines followed by the value lines
  have hlines : pyLines (write_charge
      ((hl0 :: hl1 :: hrest).flatMap (fun l => l ++ ['\n']))
      fmt charge n1 n2 n3) =
      hl0 :: hl1 :: (hrest ++
        pyLines (emitVals fmt (flatValues charge n1 n2 n3) 0)) := by
    rw [write_charge,
      pyLines_header (hl0 :: hl1 :: hrest) _ (fun l hl => (hhead l hl).1)]
    rfl
  -- facts about the value lines
  have htoks : pySplit (emitVals fmt (flatValues charge n1 n2 n3) 0) =
      (flatValues charge n1 n2 n3).map fmt :=
    pySplit_emitVals fmt (flatValues charge n1 n2 n3) hfmt1 0
  have hvl_tokens : ∀ l ∈ pyLines (emitVals fmt (flatValues charge n1 n2 n3) 0),
      ∀ t ∈ pySplit l, t ∈ (flatValues charge n1 n2 n3).map fmt := by
    intro l hl t ht
    have hmem : t ∈ (pyLines (emitVals fmt (flatValues charge n1 n2 n3)
        0)).flatMap pySplit := List.mem_flatMap.mpr ⟨l, hl, ht⟩
    rwa [tokens_of_pyLines, htoks] at hmem
  have hvl_ne : ∀ l ∈ pyLines (emitVals fmt (flatValues charge n1 n2 n3) 0),
      pySplit l ≠ [] := by
    intro l hl
    exact pySplit_ne_nil l (emit_lines_have_content fmt
      (flatValues charge n1 n2 n3) hfmt1 0 [] (fun h => absurd h hvne) l hl)
  have hvl_head : ∀ l ∈ pyLines (emitVals fmt (flatValues charge n1 n2 n3) 0),
      ¬((pySplit l).head? = some ['#']) := by
    intro l hl hcon
    have hmem : (['#'] : List Char) ∈ pySplit l := by
      rcases hsp : pySplit l with _ | ⟨h, ts⟩
      · rw [hsp] at hcon; simp at hcon
      · rw [hsp] at hcon
        simp only [List.head?_cons, Option.some.injEq] at hcon
        rw [hcon]
        exact List.mem_cons_self _ _
    obtain ⟨v, hv, hfv⟩ := List.mem_map.mp (hvl_tokens l hl _ hmem)
    exact (hfmt v hv).2.2.1 hfv
  have hvl_parse : ∀ l ∈ pyLines (emitVals fmt (flatValues charge n1 n2 n3) 0),
      ∀ t ∈ pySplit l, (pF t).isSome = true := by
    intro l hl t ht
    obtain ⟨v, hv, hfv⟩ := List.mem_map.mp (hvl_tokens l hl t ht)
    rw [← hfv]
    exact (hfmt v hv).2.2.2
  -- header line obligations
  have hne_of_head : ∀ (l : List Char), (pySplit l).head? = some ['#'] →
      pySplit l ≠ [] := by
    intro l hh hn
    rw [hn] at hh
    simp at hh
  -- the reader loop over the whole file
  have hloop := readLoop_structured pI pF hl0 hl1
    (hrest ++ pyLines (emitVals fmt (flatValues charge n1 n2 n3) 0))
    ['#'] t1 t2 t3 rtoks (n1 : ℤ) (n2 : ℤ) (n3 : ℤ)
    (hne_of_head hl0 (hhead hl0 (by simp)).2)
    (fun hcon => absurd (hhead hl0 (by simp)).2 hcon)
    hdim hd1 hd2 hd3
    (fun hcon => absurd rfl hcon)
    (by
      intro l hl
      rcases List.mem_append.mp hl with hl | hl
      · exact hne_of_head l (hhead l (by simp [hl])).2
      · exact hvl_ne l hl)
    (by
      intro l hl hcon
      rcases List.mem_append.mp hl with hl | hl
      · exact absurd (hhead l (by simp [hl])).2 hcon
      · exact hvl_parse l hl)
  -- the collected tokens are the parsed formatted values
  have htemp : collectedTokens pF (hl0 :: hl1 :: (hrest ++
      pyLines (emitVals fmt (flatValues charge n1 n2 n3) 0))) =
      (flatValues charge n1 n2 n3).map (fun v => (pF (fmt v)).getD 0) := by
    unfold collectedTokens
    rw [List.filter_cons, List.filter_cons]
    rw [show (!((pySplit hl0).head? == some (['#'] : List Char))) = false from by
      rw [(hhead hl0 (by simp)).2]; simp]
    rw [show (!((pySplit hl1).head? == some (['#'] : List Char))) = false from by
      rw [hdim]; simp]
    simp only [Bool.false_eq_true, if_false]
    rw [List.filter_append]
    rw [List.filter_eq_nil_iff.mpr (by
      intro l hl
      rw [(hhead l (by simp [hl])).2]
      simp)]
    rw [List.filter_eq_self.mpr (by
      intro l hl
      rcases hsp : (pySplit l).head? with _ | t
      · simp
      · have : ¬(t = ['#']) := fun h => hvl_head l hl (by rw [hsp, h])
        simp [this])]
    rw [List.nil_append]
    rw [filterMap_flatMap_lines pF _, tokens_of_pyLines, htoks]
    exact filterMap_map_all_some pF fmt (flatValues charge n1 n2 n3)
      (fun v hv => (hfmt v hv).2.2.2)
  -- refold
  have href := read_postqe_refold pI pF _ _ hloop
    (by simp) (by simp) (by simp)
  dsimp only at href
  rw [show ((List.filter (fun l => !((pySplit l).head? == some ['#']))
      (hl0 :: hl1 :: (hrest ++ pyLines (emitVals fmt
        (flatValues charge n1 n2 n3) 0)))).flatMap
      (fun l => (pySplit l).filterMap pF)) =
      (flatValues charge n1 n2 n3).map (fun v => (pF (fmt v)).getD 0)
    from htemp] at href
  have hlen : ((flatValues charge n1 n2 n3).map
      (fun v => (pF (fmt v)).getD 0)).length = n3 * (n2 * n1) := by
    rw [List.length_map, flatValues_length]
  rw [if_pos (by
    rw [hlen]
    simp [Int.toNat_natCast, Nat.mul_assoc]
    )] at href
  rw [hlines]
  refine ⟨_, href, ?_⟩
  intro x y z hx hy hz
  obtain ⟨q, hq⟩ := Option.isSome_iff_exists.mp
    (hfmt (charge x y z) (by
      have hg := flatValues_getElem charge n1 n2 n3 x y z hx hy hz
      obtain ⟨hlt, he⟩ := List.getElem?_eq_some.mp hg
      exact he ▸ List.getElem_mem hlt)).2.2.2
  rw [hq]
  congr 1
  rw [show ((n2 : ℤ).toNat * (n1 : ℤ).toNat) = n2 * n1 from by
    simp [Int.toNat_natCast]]
  rw [show ((n1 : ℤ).toNat) = n1 from by simp [Int.toNat_natCast]]
  rw [show z * (n2 * n1) + y * n1 + x = z * (n2 * n1) + (y * n1 + x) from by
    omega]
  rw [List.getElem?_map, flatValues_getElem charge n1 n2 n3 x y z hx hy hz]
  simp [hq]

/-- Witness for C2 on a concrete 1×1×2 field with exactly-representable
formatting: the round trip recovers both cells. -/
theorem codec_round_trip_witness :
    ((0 : ℕ) < 1 ∧ (0 : ℕ) < 1 ∧ (0 : ℕ) < 2) ∧
    (∀ l ∈ "# h".toList :: "# 1 1 2".toList :: ([] : List (List Char)),
      '\n' ∉ l ∧ (pySplit l).head? = some ['#']) ∧
    (pySplit "# 1 1 2".toList =
      ['#'] :: ['1'] :: ['1'] :: ['2'] :: []) ∧
    (∀ v ∈ flatValues (fun _ _ z => if z = 0 then (1 : ℚ) else 2) 1 1 2,
      (if v = 1 then [('1' : Char)] else ['2']) ≠ [] ∧
      (∀ ch ∈ (if v = 1 then [('1' : Char)] else ['2']),
        ¬ch.isWhitespace = true) ∧
      (if v = 1 then [('1' : Char)] else ['2']) ≠ ['#'] ∧
      ((fun t => if t = ['1'] then some (1 : ℚ) else if t = ['2'] then
        some 2 else none) (if v = 1 then ['1'] else ['2'])).isSome = true) ∧
    ∃ g, read_postqe_output_file
        (fun t => if t = ['1'] then some (1 : ℤ) else if t = ['2'] then
          some 2 else none)
        (fun t => if t = ['1'] then some (1 : ℚ) else if t = ['2'] then
          some 2 else none)
        (pyLines (write_charge
          (("# h".toList :: "# 1 1 2".toList :: ([] : List (List Char))).flatMap
            (fun l => l ++ ['\n']))
          (fun q => if q = 1 then ['1'] else ['2'])
          (fun _ _ z => if z = 0 then (1 : ℚ) else 2) 1 1 2)) = Except.ok g ∧
      ∀ x y z, x < 1 → y < 1 → z < 2 →
        (fun t => if t = ['1'] then some (1 : ℚ) else if t = ['2'] then
          some 2 else none)
          ((fun q => if q = 1 then ['1'] else ['2'])
            ((fun _ _ z => if z = 0 then (1 : ℚ) else 2) x y z)) =
          some (g x y z) :=
  ⟨by decide, by decide, by decide, by decide,
    codec_round_trip
      (fun t => if t = ['1'] then some (1 : ℤ) else if t = ['2'] then
        some 2 else none)
      (fun t => if t = ['1'] then some (1 : ℚ) else if t = ['2'] then
        some 2 else none)
      (fun q => if q = 1 then ['1'] else ['2'])
      (fun _ _ z => if z = 0 then (1 : ℚ) else 2) 1 1 2
      (by decide) (by decide) (by decide)
      "# h".toList "# 1 1 2".toList [] ['1'] ['1'] ['2'] []
      (by decide) (by decide) (by decide) (by decide) (by decide)
      (by decide)⟩

/-! ### Line/chunk structure of the emitted value section -/

/-- Tokenizing the raw characters of one output line recovers its formatted
values. -/
theorem pySplit_sepFmt (fmt : ℚ → List Char) :
    ∀ (ps : List ℚ),
      (∀ v ∈ ps, fmt v ≠ [] ∧ ∀ ch ∈ fmt v, ¬ch.isWhitespace = true) →
      pySplit (ps.flatMap (fun v => ' ' :: ' ' :: fmt v)) = ps.map fmt := by
  intro ps
  induction ps with
  | nil => intro _; rfl
  | cons v vs ih =>
      intro h
      obtain ⟨hv, hvws⟩ := h v (List.mem_cons_self v vs)
      have hsp : (' ' : Char).isWhitespace = true := by decide
      have hX : vs.flatMap (fun v => ' ' :: ' ' :: fmt v) = [] ∨
          ∃ w X', vs.flatMap (fun v => ' ' :: ' ' :: fmt v) = w :: X' ∧
            w.isWhitespace = true := by
        cases vs with
        | nil => left; rfl
        | cons v' vs' =>
            right
            exact ⟨' ', _, by rw [List.flatMap_cons]; rfl, hsp⟩
      rw [List.flatMap_cons,
        show (' ' :: ' ' :: fmt v) ++ vs.flatMap (fun v => ' ' :: ' ' :: fmt v) =
          ' ' :: ' ' :: (fmt v ++ vs.flatMap (fun v => ' ' :: ' ' :: fmt v))
          from by simp]
      rw [pySplit, pySplitGo_ws ' ' hsp, if_pos rfl, pySplitGo_ws ' ' hsp,
        if_pos rfl]
      rw [pySplitGo_absorb (fmt v) hvws [] _, List.append_nil]
      rw [pySplitGo_flush (fmt v).reverse (by simpa using hv) _ hX]
      rw [List.reverse_reverse, List.map_cons]
      congr 1
      exact ih (fun v' hv' => h v' (List.mem_cons_of_mem v hv'))

/-- The lines of the value section are exactly the groups of five values
(tracked against the running counter), each line carrying the formatted
values of its group. -/
theorem emit_lines_chunks (fmt : ℚ → List Char) :
    ∀ (vals : List ℚ),
      (∀ v ∈ vals, fmt v ≠ [] ∧ ∀ ch ∈ fmt v, ¬ch.isWhitespace = true) →
      ∀ (c : ℕ) (cur : List ℚ),
        (∀ v ∈ cur, fmt v ≠ [] ∧ ∀ ch ∈ fmt v, ¬ch.isWhitespace = true) →
        (pyLinesGo ((cur.reverse.flatMap
            (fun v => ' ' :: ' ' :: fmt v)).reverse)
          (emitVals fmt vals c)).map pySplit =
          (chunksGo (4 - c % 5) cur vals).map (List.map fmt) := by
  intro vals
  induction vals with
  | nil =>
      intro _ c cur hcur
      rw [show emitVals fmt [] c = [] from rfl]
      by_cases hc : cur = []
      · subst hc
        rw [show chunksGo (4 - c % 5) [] [] = [] from by
          cases h : 4 - c % 5 <;> rfl]
        rfl
      · have hflat : cur.reverse.flatMap (fun v => ' ' :: ' ' :: fmt v) ≠ [] := by
          simp only [ne_eq, List.flatMap_eq_nil_iff]
          intro hall
          exact (by simp : (' ' :: ' ' :: fmt (cur.reverse.head
            (by simpa using hc))) ≠ []) (hall _ (List.head_mem _))
        rw [show pyLinesGo ((cur.reverse.flatMap
            (fun v => ' ' :: ' ' :: fmt v)).reverse) [] =
            [(cur.reverse.flatMap (fun v => ' ' :: ' ' :: fmt v)).reverse.reverse]
          from by
            rw [show pyLinesGo ((cur.reverse.flatMap
              (fun v => ' ' :: ' ' :: fmt v)).reverse) [] =
              if (cur.reverse.flatMap (fun v => ' ' :: ' ' :: fmt v)).reverse = []
              then [] else [(cur.reverse.flatMap
                (fun v => ' ' :: ' ' :: fmt v)).reverse.reverse] from rfl]
            rw [if_neg (by simpa using hflat)]]
        rw [List.reverse_reverse]
        rw [show chunksGo (4 - c % 5) cur [] = [cur.reverse] from by
          cases h : 4 - c % 5 <;> simp [chunksGo, hc]]
        rw [List.map_cons, List.map_nil, List.map_cons, List.map_nil]
        congr 1
        exact pySplit_sepFmt fmt cur.reverse
          (fun v hv => hcur v (List.mem_reverse.mp hv))
  | cons v vs ih =>
      intro hfmt c cur hcur
      obtain ⟨hv, hvws⟩ := hfmt v (List.mem_cons_self v vs)
      have hrest := fun v' hv' => hfmt v' (List.mem_cons_of_mem v hv')
      have hcur' : ∀ v' ∈ v :: cur, fmt v' ≠ [] ∧
          ∀ ch ∈ fmt v', ¬ch.isWhitespace = true := by
        intro v' hv'
        rcases List.mem_cons.mp hv' with h | h
        · exact h ▸ ⟨hv, hvws⟩
        · exact hcur v' h
      have hnl : '\n' ∉ (' ' :: ' ' :: fmt v) := by
        intro hmem
        rcases List.mem_cons.mp hmem with h | hmem
        · exact absurd h.symm (by decide)
        rcases List.mem_cons.mp hmem with h | hmem
        · exact absurd h.symm (by decide)
        · exact hvws '\n' hmem (by decide)
      have hacc : (' ' :: ' ' :: fmt v).reverse ++
          (cur.reverse.flatMap (fun v => ' ' :: ' ' :: fmt v)).reverse =
          ((v :: cur).reverse.flatMap (fun v => ' ' :: ' ' :: fmt v)).reverse := by
        simp [List.reverse_cons, List.flatMap_append, List.reverse_append,
          List.flatMap_cons, List.append_assoc]
      rw [show emitVals fmt (v :: vs) c = (' ' :: ' ' :: fmt v) ++
        ((if (c + 1) % 5 = 0 then ['\n'] else []) ++
          emitVals fmt vs (c + 1)) from by simp [emitVals, List.append_assoc]]
      rw [pyLinesGo_absorb (' ' :: ' ' :: fmt v) hnl _, hacc]
      by_cases h5 : c % 5 = 4
      · have h51 : (c + 1) % 5 = 0 := by omega
        rw [if_pos h51,
          show (['\n'] : List Char) ++ emitVals fmt vs (c + 1) =
            '\n' :: emitVals fmt vs (c + 1) from rfl, pyLinesGo_nl]
        rw [List.map_cons, List.reverse_reverse]
        rw [show 4 - c % 5 = 0 from by omega]
        rw [show chunksGo 0 cur (v :: vs) =
          (v :: cur).reverse :: chunksGo 4 [] vs from rfl]
        rw [List.map_cons]
        congr 1
        · rw [show (v :: cur).reverse.flatMap (fun v => ' ' :: ' ' :: fmt v) =
            ((v :: cur).reverse).flatMap (fun v => ' ' :: ' ' :: fmt v) from rfl]
          exact pySplit_sepFmt fmt (v :: cur).reverse
            (fun v' hv' => hcur' v' (List.mem_reverse.mp hv'))
        · have := ih hrest (c + 1) [] (by simp)
          rw [show 4 - (c + 1) % 5 = 4 from by omega] at this
          exact this
      · have h51 : ¬((c + 1) % 5 = 0) := by omega
        rw [if_neg h51, List.nil_append]
        have := ih hrest (c + 1) (v :: cur) hcur'
        rw [show 4 - (c + 1) % 5 = (4 - c % 5) - 1 from by omega] at this
        obtain ⟨k, hk⟩ : ∃ k, 4 - c % 5 = k + 1 := ⟨3 - c % 5, by omega⟩
        rw [hk]
        rw [show chunksGo (k + 1) cur (v :: vs) = chunksGo k (v :: cur) vs
          from rfl]
        rw [hk] at this
        simpa using this

/-- Shape of the five-groups: every group is nonempty with at most five
values, and every group except possibly the last has exactly five. -/
theorem chunksGo_shape :
    ∀ (vals : List ℚ) (r : ℕ) (cur : List ℚ), cur.length + r = 4 →
      ∀ (i : ℕ) (g : List ℚ), (chunksGo r cur vals)[i]? = some g →
        1 ≤ g.length ∧ g.length ≤ 5 ∧
          (i + 1 < (chunksGo r cur vals).length → g.length = 5) := by
  intro vals
  induction vals with
  | nil =>
      intro r cur hlen i g hg
      by_cases hc : cur = []
      · subst hc
        rw [show chunksGo r [] [] = [] from by cases r <;> rfl] at hg
        simp at hg
      · rw [show chunksGo r cur [] = [cur.reverse] from by
          cases r <;> simp [chunksGo, hc]] at hg ⊢
        cases i with
        | zero =>
            simp only [List.getElem?_cons_zero, Option.some.injEq] at hg
            subst hg
            refine ⟨?_, ?_, ?_⟩
            · have : cur.length ≠ 0 := fun h => hc (List.length_eq_zero.mp h)
              simp only [List.length_reverse]
              omega
            · simp only [List.length_reverse]
              omega
            · intro h
              simp at h
        | succ j => simp at hg
  | cons v vs ih =>
      intro r cur hlen i g hg
      match r, hg with
      | 0, hg =>
          rw [show chunksGo 0 cur (v :: vs) =
            (v :: cur).reverse :: chunksGo 4 [] vs from rfl] at hg ⊢
          cases i with
          | zero =>
              simp only [List.getElem?_cons_zero, Option.some.injEq] at hg
              subst hg
              refine ⟨?_, ?_, fun _ => ?_⟩ <;>
                simp only [List.length_reverse, List.length_cons] <;> omega
          | succ j =>
              simp only [List.getElem?_cons_succ] at hg
              have := ih 4 [] (by simp) j g hg
              refine ⟨this.1, this.2.1, fun h => this.2.2 ?_⟩
              simp only [List.length_cons] at h
              omega
      | r' + 1, hg =>
          rw [show chunksGo (r' + 1) cur (v :: vs) =
            chunksGo r' (v :: cur) vs from rfl] at hg ⊢
          exact ih r' (v :: cur) (by simp; omega) i g hg

/-- The last emitted character: a newline exactly when the total value
count (plus the starting counter) is a multiple of five; otherwise it is
the last character of the last formatted value, never a newline. -/
theorem emitVals_getLast (fmt : ℚ → List Char) :
    ∀ (vals : List ℚ) (c : ℕ), vals ≠ [] →
      (∀ v ∈ vals, fmt v ≠ [] ∧ ∀ ch ∈ fmt v, ¬ch.isWhitespace = true) →
      ((emitVals fmt vals c).getLast? = some '\n' ↔
        (c + vals.length) % 5 = 0) := by
  intro vals
  induction vals with
  | nil => intro c h; exact absurd rfl h
  | cons v vs ih =>
      intro c _ hfmt
      obtain ⟨hv, hvws⟩ := hfmt v (List.mem_cons_self v vs)
      cases hvs : vs with
      | nil =>
          subst hvs
          rw [show emitVals fmt [v] c = (' ' :: ' ' :: fmt v) ++
            (if (c + 1) % 5 = 0 then ['\n'] else []) from by
              simp [emitVals]]
          by_cases h5 : (c + 1) % 5 = 0
          · rw [if_pos h5, List.getLast?_concat]
            simp only [List.length_cons, List.length_nil]
            constructor
            · intro _
              omega
            · intro _
              trivial
          · rw [if_neg h5, List.append_nil]
            rw [show (' ' :: ' ' :: fmt v) = [' ', ' '] ++ fmt v from rfl,
              List.getLast?_append_of_ne_nil _ hv]
            constructor
            · intro hlast
              exact absurd (by decide : ('\n' : Char).isWhitespace = true)
                (hvws '\n' (List.mem_of_mem_getLast? hlast))
            · intro h
              simp only [List.length_cons, List.length_nil] at h
              omega
      | cons v' vs' =>
          rw [← hvs]
          have hvsne : vs ≠ [] := by rw [hvs]; simp
          have hene : emitVals fmt vs (c + 1) ≠ [] := by
            rw [hvs]
            simp [emitVals]
          rw [show emitVals fmt (v :: vs) c = ((' ' :: ' ' :: fmt v) ++
            (if (c + 1) % 5 = 0 then ['\n'] else [])) ++
            emitVals fmt vs (c + 1) from by simp [emitVals, List.append_assoc]]
          rw [List.getLast?_append_of_ne_nil _ hene]
          rw [ih (c + 1) hvsne (fun v' hv' => hfmt v' (List.mem_cons_of_mem v hv'))]
          rw [show (c + 1) + vs.length = c + (vs.length + 1) from by omega]
          rfl

/-- **C3, counterexample.**  Writing a 3×1×1 field (a final group of three
values, shorter than five) emits *no* line break after the final group: the
output ends with the last value's character, not with a newline. -/
theorem writer_no_final_newline :
    write_charge [] (fun _ => ['v']) (fun _ _ _ => (0 : ℚ)) 3 1 1 =
      "  v  v  v".toList ∧
    (write_charge [] (fun _ => ['v']) (fun _ _ _ => (0 : ℚ)) 3 1 1).getLast? ≠
      some '\n' := by
  constructor <;> decide

/-- **C3, amended.**  The writer emits the values in the fixed nested order
(outer loop over the 3rd axis, middle over the 2nd, inner over the 1st, so
the 1st axis varies fastest), five values per line — every line holds the
formatted values of one group of five, all groups except possibly the last
have exactly five values — but the line break follows only every fifth
value: when the final group is shorter than five, the output ends without a
trailing line break (the last character is the final value's, a newline
appears last exactly when the value count is a multiple of five). -/
theorem writer_layout (fmt : ℚ → List Char) (charge : Grid3 ℚ) (n1 n2 n3 : ℕ)
    (hfmt : ∀ v ∈ flatValues charge n1 n2 n3,
      fmt v ≠ [] ∧ ∀ ch ∈ fmt v, ¬ch.isWhitespace = true) :
    pySplit (write_charge [] fmt charge n1 n2 n3) =
      (flatValues charge n1 n2 n3).map fmt ∧
    (pyLines (write_charge [] fmt charge n1 n2 n3)).map pySplit =
      (groupsOfFive (flatValues charge n1 n2 n3)).map (List.map fmt) ∧
    (∀ (i : ℕ) (g : List ℚ),
      (groupsOfFive (flatValues charge n1 n2 n3))[i]? = some g →
      1 ≤ g.length ∧ g.length ≤ 5 ∧
        (i + 1 < (groupsOfFive (flatValues charge n1 n2 n3)).length →
          g.length = 5)) ∧
    (flatValues charge n1 n2 n3 ≠ [] →
      ((write_charge [] fmt charge n1 n2 n3).getLast? = some '\n' ↔
        (flatValues charge n1 n2 n3).length % 5 = 0)) := by
  have hw : write_charge [] fmt charge n1 n2 n3 =
      emitVals fmt (flatValues charge n1 n2 n3) 0 := rfl
  refine ⟨?_, ?_, ?_, ?_⟩
  · rw [hw]
    exact pySplit_emitVals fmt (flatValues charge n1 n2 n3) hfmt 0
  · rw [hw]
    have := emit_lines_chunks fmt (flatValues charge n1 n2 n3) hfmt 0 []
      (by simp)
    simpa [pyLines, groupsOfFive] using this
  · intro i g hg
    exact chunksGo_shape (flatValues charge n1 n2 n3) 4 [] (by simp) i g hg
  · intro hne
    rw [hw]
    have := emitVals_getLast fmt (flatValues charge n1 n2 n3) 0 hne hfmt
    simpa using this

/-- Witness for the amended C3 at the concrete 3×1×1 field of the
counterexample. -/
theorem writer_layout_witness :
    (∀ v ∈ flatValues (fun _ _ _ => (0 : ℚ)) 3 1 1,
      (fun _ => [('v' : Char)]) v ≠ [] ∧
      ∀ ch ∈ (fun _ => [('v' : Char)]) v, ¬ch.isWhitespace = true) ∧
    (pySplit (write_charge [] (fun _ => ['v']) (fun _ _ _ => (0 : ℚ)) 3 1 1) =
      (flatValues (fun _ _ _ => (0 : ℚ)) 3 1 1).map (fun _ => ['v']) ∧
    (pyLines (write_charge [] (fun _ => ['v'])
        (fun _ _ _ => (0 : ℚ)) 3 1 1)).map pySplit =
      (groupsOfFive (flatValues (fun _ _ _ => (0 : ℚ)) 3 1 1)).map
        (List.map (fun _ => ['v'])) ∧
    (∀ (i : ℕ) (g : List ℚ),
      (groupsOfFive (flatValues (fun _ _ _ => (0 : ℚ)) 3 1 1))[i]? = some g →
      1 ≤ g.length ∧ g.length ≤ 5 ∧
        (i + 1 < (groupsOfFive (flatValues (fun _ _ _ => (0 : ℚ)) 3 1 1)).length →
          g.length = 5)) ∧
    (flatValues (fun _ _ _ => (0 : ℚ)) 3 1 1 ≠ [] →
      ((write_charge [] (fun _ => ['v'])
          (fun _ _ _ => (0 : ℚ)) 3 1 1).getLast? = some '\n' ↔
        (flatValues (fun _ _ _ => (0 : ℚ)) 3 1 1).length % 5 = 0))) :=
  ⟨by decide,
    writer_layout (fun _ => ['v']) (fun _ _ _ => (0 : ℚ)) 3 1 1 (by decide)⟩

end Postqe
